import Mathlib

/-!
Verification of the eCFR analyzer's reference-resolution and rollup pipeline
(`ecfr_analyzer`): reference keys, correction matching, hierarchical XML
narrowing, the deduplicating reference processor, the word-count global
total, and the parent/child rollup aggregator.

Python dictionaries are embedded as association lists with Python 3.7+
semantics: insertion order is preserved, updating an existing key keeps its
position, and a fresh key is appended at the end.
-/

namespace ECFR

/-- Lookup in an association list: the first binding of the key, if any.
Mirrors Python `d.get(k)` / `d[k]`. -/
def lookupA {α : Type} {β : Type} [DecidableEq α] (k : α) : List (α × β) → Option β
  | [] => none
  | (k', v) :: rest => if k' = k then some v else lookupA k rest

/-- Update in an association list: replace the first binding of the key in
place, or append a fresh binding at the end.  Mirrors Python `d[k] = v`. -/
def setA {α : Type} {β : Type} [DecidableEq α] (k : α) (v : β) : List (α × β) → List (α × β)
  | [] => [(k, v)]
  | (k', v') :: rest => if k' = k then (k, v) :: rest else (k', v') :: setA k v rest

/-- Membership test, mirroring Python `k in d`. -/
def memA {α : Type} {β : Type} [DecidableEq α] (k : α) (l : List (α × β)) : Bool :=
  (lookupA k l).isSome

theorem lookupA_setA_self {α β : Type} [DecidableEq α] (k : α) (v : β) (l : List (α × β)) :
    lookupA k (setA k v l) = some v := by
  induction l with
  | nil => simp [setA, lookupA]
  | cons p rest ih =>
    obtain ⟨k', v'⟩ := p
    by_cases h : k' = k <;> simp [setA, lookupA, h, ih]

theorem lookupA_setA_ne {α β : Type} [DecidableEq α] (k k'' : α) (v : β) (l : List (α × β))
    (h : k ≠ k'') : lookupA k'' (setA k v l) = lookupA k'' l := by
  induction l with
  | nil => simp [setA, lookupA, h]
  | cons p rest ih =>
    obtain ⟨k', v'⟩ := p
    by_cases hk : k' = k
    · subst hk
      simp [setA, lookupA, h]
    · simp [setA, lookupA, hk, ih]

theorem keys_setA_mem {α β : Type} [DecidableEq α] (k k'' : α) (v : β) (l : List (α × β))
    (h : k'' ∈ l.map Prod.fst) : k'' ∈ (setA k v l).map Prod.fst := by
  induction l with
  | nil => simp at h
  | cons p rest ih =>
    obtain ⟨k', v'⟩ := p
    by_cases hk : k' = k
    · subst hk
      simp only [List.map_cons, List.mem_cons] at h
      rcases h with h | h
      · simp [setA, h]
      · simp [setA, h]
    · simp only [List.map_cons, List.mem_cons] at h
      rcases h with h | h
      · simp [setA, hk, h]
      · simp [setA, hk, ih h]

theorem isSome_lookupA_setA {α β : Type} [DecidableEq α] (k k'' : α) (v : β) (l : List (α × β))
    (h : (lookupA k'' l).isSome) : (lookupA k'' (setA k v l)).isSome := by
  by_cases hk : k = k''
  · subst hk
    simp [lookupA_setA_self]
  · rwa [lookupA_setA_ne _ _ _ _ hk]

/-- A canonical CFR reference key `(title, subtitle, chapter, subchapter, part)`
as produced by `_create_ref_key`.  Absent fields are the empty string; an
absent title is `0` (a falsy title is skipped by the processor, as in the
source's `if title_num:` checks). -/
structure RefKey where
  title : Nat
  subtitle : String
  chapter : String
  subchapter : String
  part : String
deriving DecidableEq, Repr

/-- A CFR reference fragment as found in an agency's `cfr_references` list.
Absent string fields are the empty string, mirroring `ref.get(..., "")` and
Python truthiness on the retrieved values. -/
structure CfrRef where
  title : Nat
  subtitle : String
  chapter : String
  subchapter : String
  part : String
  subpart : String
  subjgrp : String
  sectionId : String
deriving DecidableEq, Repr

/-- Embedding of `BaseECFRAnalyzer._create_ref_key`: the five coarsest fields
of the reference, truncated at the part level. -/
def createRefKey (ref : CfrRef) : RefKey :=
  { title := ref.title
    subtitle := ref.subtitle
    chapter := ref.chapter
    subchapter := ref.subchapter
    part := ref.part }

/-- A correction's `hierarchy` dictionary, restricted to the levels the
matcher reads.  A field that is absent from the dictionary is the empty
string: the source reads the finer fields with `d.get(level)` and then tests
them only with Python truthiness, so `None` and `""` are indistinguishable
there, and `title` is read with `d.get("title", "")`. -/
structure CorrectionHierarchy where
  title : String
  subtitle : String
  chapter : String
  subchapter : String
  part : String
deriving DecidableEq, Repr

/-- One level of `CorrectionsAnalyzer._matches_reference`: the correction
blocks the match at a level iff the reference key is non-empty there and the
correction specifies a non-empty, different value there. -/
def levelBlocks (refV : String) (corrV : String) : Bool :=
  refV ≠ "" && corrV ≠ "" && corrV ≠ refV

/-- Embedding of `CorrectionsAnalyzer._matches_reference`: sequential checks
on title (string comparison against `str(title_num)`), then subtitle,
chapter, subchapter and part. -/
def matchesReference (refKey : RefKey) (h : CorrectionHierarchy) (titleNum : Nat) : Bool :=
  if h.title ≠ toString titleNum then false
  else if levelBlocks refKey.subtitle h.subtitle then false
  else if levelBlocks refKey.chapter h.chapter then false
  else if levelBlocks refKey.subchapter h.subchapter then false
  else if levelBlocks refKey.part h.part then false
  else true

/-- Spec-side matching predicate, following §4.5's words: titles equal as
strings, and at each finer level that the reference key fills in, the
correction either omits a value or specifies an equal one. -/
def specLevelOk (refV : String) (corrV : String) : Prop :=
  refV ≠ "" → corrV ≠ "" → corrV = refV

/-- CLAIM C5.  `_matches_reference` returns true iff the correction's
hierarchy title equals the reference's title as strings and, for each of
subtitle/chapter/subchapter/part non-empty in the reference key, the
correction omits a value at that level or specifies an equal one; a
specified-but-different value at any such level makes the result false, and
a title-only reference key matches every correction at that title.
Concretely, `{title: "1"}` matches `(1, "", "II", "", "5")` and
`{title: "1", part: "9"}` does not match `(1, "", "", "", "5")`. -/
theorem matches_reference_characterization :
    (∀ (k : RefKey) (h : CorrectionHierarchy),
        matchesReference k h k.title = true ↔
          (h.title = toString k.title ∧ specLevelOk k.subtitle h.subtitle ∧
            specLevelOk k.chapter h.chapter ∧ specLevelOk k.subchapter h.subchapter ∧
            specLevelOk k.part h.part)) ∧
    (∀ (t : Nat) (h : CorrectionHierarchy), h.title = toString t →
        matchesReference ⟨t, "", "", "", ""⟩ h t = true) ∧
    matchesReference ⟨1, "", "II", "", "5"⟩ ⟨"1", "", "", "", ""⟩ 1 = true ∧
    matchesReference ⟨1, "", "", "", "5"⟩ ⟨"1", "", "", "", "9"⟩ 1 = false := by
  refine ⟨?_, ?_, by decide, by decide⟩
  · intro k h
    simp only [matchesReference, levelBlocks, specLevelOk]
    constructor
    · intro hm
      by_cases ht : h.title = toString k.title
      · refine ⟨ht, ?_, ?_, ?_, ?_⟩ <;> intro h1 h2 <;> by_contra hne <;>
          simp [ht, h1, h2, hne] at hm
      · simp [ht] at hm
    · rintro ⟨ht, h1, h2, h3, h4⟩
      simp [ht]
      refine ⟨?_, ?_, ?_, ?_⟩ <;> tauto
  · intro t h ht
    simp [matchesReference, levelBlocks, ht]

/-- A parsed XML element: tag name, the identifying `N` attribute (empty
string when absent, matching the source's Python-truthiness test on
`div.get("N")`), the element's own text, and its child elements. -/
inductive XmlNode : Type where
  | mk (tag : String) (attrN : String) (text : String) (children : List XmlNode)
deriving Repr

def XmlNode.tag : XmlNode → String
  | .mk t _ _ _ => t

def XmlNode.attrN : XmlNode → String
  | .mk _ a _ _ => a

def XmlNode.text : XmlNode → String
  | .mk _ _ s _ => s

def XmlNode.children : XmlNode → List XmlNode
  | .mk _ _ _ cs => cs

mutual

/-- All strict descendants of a node, in document (pre-)order: the search
space of BeautifulSoup's `find_all(..., recursive=True)`. -/
def descNode : XmlNode → List XmlNode
  | .mk _ _ _ cs => descList cs
termination_by structural n => n

def descList : List XmlNode → List XmlNode
  | [] => []
  | c :: cs => c :: (descNode c ++ descList cs)
termination_by structural l => l

end

/-- Substring test on character lists: some suffix of the haystack starts
with the needle. -/
def containsSub : List Char → List Char → Bool
  | _, [] => true
  | [], _ :: _ => false
  | h :: t, p :: pt => (List.isPrefixOf (p :: pt) (h :: t)) || containsSub t (p :: pt)

/-- Case-insensitive substring test, mirroring Python's
`needle.lower() in hay.lower()` (character-wise lowering). -/
def strContainsCI (hay needle : String) : Bool :=
  needle = "" || containsSub (hay.data.map Char.toLower) (needle.data.map Char.toLower)

/-- Visible text of an element: its own text and all descendants' texts,
joined by single spaces, empty pieces dropped — the embedding of
`element.get_text(separator=" ", strip=True)`. -/
def getText (n : XmlNode) : String :=
  " ".intercalate (((n :: descNode n).map XmlNode.text).filter (· ≠ ""))

/-- The narrowing state of `_extract_text_for_reference`: the current
candidate elements, the trail of matched levels, the human-readable
description, and the deepest matched level. -/
structure NarrowState where
  target : List XmlNode
  foundLevels : List String
  description : String
  lastMatched : String
deriving Repr

/-- The elements collected by `find_matching_elements`: for every current
candidate, all descendants at any depth with the level's tag whose `N`
attribute is present and contains the reference value case-insensitively. -/
def matchedElems (targets : List XmlNode) (divTag : String) (refValue : String) : List XmlNode :=
  targets.foldr (fun p acc =>
    ((descNode p).filter (fun d =>
      d.tag == divTag && d.attrN ≠ "" && strContainsCI d.attrN refValue)) ++ acc) []

/-- One level of narrowing: embedding of `find_matching_elements` together
with its caller's `if divN_elements: target_elements = divN_elements`.  An
absent reference value or an empty match set leaves the state unchanged. -/
def narrowLevel (st : NarrowState) (divTag : String) (refValue : String)
    (levelName levelDesc : String) : NarrowState :=
  if refValue = "" then st
  else
    let matched := matchedElems st.target divTag refValue
    if matched.isEmpty then st
    else
      { target := matched
        foundLevels := st.foundLevels ++ [levelName]
        description := st.description ++ ", " ++ levelDesc ++ " " ++ refValue
        lastMatched := levelName }

/-- The level-by-level narrowing pass of `_extract_text_for_reference`,
starting from the `DIV1` candidates. -/
def narrowAll (ref : CfrRef) (div1s : List XmlNode) : NarrowState :=
  let st : NarrowState :=
    ⟨div1s, ["title"], "Title " ++ toString ref.title, "title"⟩
  let st := narrowLevel st "DIV2" ref.subtitle "subtitle" "Subtitle"
  let st := narrowLevel st "DIV3" ref.chapter "chapter" "Chapter"
  let st := narrowLevel st "DIV4" ref.subchapter "subchapter" "Subchapter"
  let st := narrowLevel st "DIV5" ref.part "part" "Part"
  let st := narrowLevel st "DIV6" ref.subpart "subpart" "Subpart"
  let st := narrowLevel st "DIV7" ref.subjgrp "subjgrp" "Subject Group"
  narrowLevel st "DIV8" ref.sectionId "section" "Section"

/-- All nodes of the given tag in the parsed document (the root models the
document object; `soup.find_all` searches its descendants). -/
def findAllTag (tag : String) (root : XmlNode) : List XmlNode :=
  (descNode root).filter (fun d => d.tag == tag)

/-- Body of `_extract_text_for_reference` after a successful parse: find the
`DIV1` elements (falling back to the whole document's text when there are
none), narrow level by level, and join the non-empty texts of the final
candidates. -/
def extractFromSoup (root : XmlNode) (ref : CfrRef) : String × String :=
  let div1s := findAllTag "DIV1" root
  if div1s.isEmpty then
    (getText root, "Title " ++ toString ref.title ++ " (full text)")
  else
    let st := narrowAll ref div1s
    (" ".intercalate ((st.target.map getText).filter (· ≠ "")), st.description)

/-- Embedding of `_extract_text_for_reference`, with the two BeautifulSoup
parsers (`lxml-xml`, then the `html.parser` fallback) abstracted as fallible
collaborators returning `Except`: failure of the strict parser falls back to
the lenient one, and failure of both yields empty text plus a diagnostic
instead of an exception (the Lean embedding is a total function). -/
def extractTextForReference (strictParse lenientParse : String → Except String XmlNode)
    (xmlData : String) (ref : CfrRef) : String × String :=
  if xmlData = "" then ("", "No XML data")
  else
    match strictParse xmlData with
    | .ok soup => extractFromSoup soup ref
    | .error _ =>
      match lenientParse xmlData with
      | .ok soup => extractFromSoup soup ref
      | .error e2 => ("", "Error parsing XML: " ++ e2)

theorem mem_matchedElems (refValue : String) {ts : List XmlNode} {divTag : String}
    {p d : XmlNode}
    (hp : p ∈ ts) (hd : d ∈ descNode p) (htag : d.tag = divTag) (hattr : d.attrN ≠ "")
    (hsub : strContainsCI d.attrN refValue = true) :
    d ∈ matchedElems ts divTag refValue := by
  induction ts with
  | nil => simp at hp
  | cons q rest ih =>
    simp only [matchedElems, List.foldr_cons, List.mem_append]
    rcases List.mem_cons.mp hp with h | h
    · subst h
      left
      simp only [List.mem_filter]
      exact ⟨hd, by simp [htag, hattr, hsub]⟩
    · right
      exact ih h

/-- CLAIM C6.  At each narrowing level the extractor searches all descendants
at any depth of every current candidate for elements of the level's tag whose
`N` attribute contains the reference value case-insensitively; a specified
value with zero matches leaves the candidate set unchanged; and concretely a
reference `{title: 1, part: "5"}` against XML where `DIV5[N="5"]` sits
directly under `DIV1` still matches at the part level, with `found_levels`
ending in `"part"`. -/
theorem hierarchical_matching_fallback :
    (∀ (st : NarrowState) (divTag refValue levelName levelDesc : String) (p d : XmlNode),
        refValue ≠ "" → p ∈ st.target → d ∈ descNode p → d.tag = divTag →
        d.attrN ≠ "" → strContainsCI d.attrN refValue = true →
        d ∈ (narrowLevel st divTag refValue levelName levelDesc).target) ∧
    (∀ (st : NarrowState) (divTag refValue levelName levelDesc : String),
        matchedElems st.target divTag refValue = [] →
        narrowLevel st divTag refValue levelName levelDesc = st) ∧
    ((narrowAll ⟨1, "", "", "", "5", "", "", ""⟩
        [XmlNode.mk "DIV1" "1" "t1" [XmlNode.mk "DIV5" "5" "t5" []]]).foundLevels =
      ["title", "part"] ∧
    (narrowAll ⟨1, "", "", "", "5", "", "", ""⟩
        [XmlNode.mk "DIV1" "1" "t1" [XmlNode.mk "DIV5" "5" "t5" []]]).lastMatched = "part" ∧
    extractFromSoup (XmlNode.mk "ROOT" "" "" [XmlNode.mk "DIV1" "1" "t1"
        [XmlNode.mk "DIV5" "5" "t5" []]]) ⟨1, "", "", "", "5", "", "", ""⟩ =
      ("t5", "Title 1, Part 5")) := by
  refine ⟨?_, ?_, by decide, by decide, by decide⟩
  · intro st divTag refValue levelName levelDesc p d hv hp hd htag hattr hsub
    have hmem := mem_matchedElems refValue hp hd htag hattr hsub
    have hne : (matchedElems st.target divTag refValue).isEmpty = false := by
      cases hm : matchedElems st.target divTag refValue with
      | nil => rw [hm] at hmem; simp at hmem
      | cons a l => simp
    simp only [narrowLevel, if_neg hv, hne]
    simpa using hmem
  · intro st divTag refValue levelName levelDesc hempty
    by_cases hv : refValue = ""
    · simp [narrowLevel, hv]
    · simp [narrowLevel, hv, hempty]

/-- CLAIM C7.  `_extract_text_for_reference` never raises (the embedding is a
total function): it attempts the strict parse, falls back to the lenient
parse on failure, and when both parsers fail it returns
`("", "Error parsing XML: <reason>")` instead of propagating the failure. -/
theorem extract_text_parse_fallback :
    (∀ (sp lp : String → Except String XmlNode) (xml : String) (ref : CfrRef)
        (soup : XmlNode), xml ≠ "" → sp xml = .ok soup →
        extractTextForReference sp lp xml ref = extractFromSoup soup ref) ∧
    (∀ (sp lp : String → Except String XmlNode) (xml : String) (ref : CfrRef)
        (e : String) (soup : XmlNode), xml ≠ "" → sp xml = .error e → lp xml = .ok soup →
        extractTextForReference sp lp xml ref = extractFromSoup soup ref) ∧
    (∀ (sp lp : String → Except String XmlNode) (xml : String) (ref : CfrRef)
        (e1 e2 : String), xml ≠ "" → sp xml = .error e1 → lp xml = .error e2 →
        extractTextForReference sp lp xml ref = ("", "Error parsing XML: " ++ e2)) ∧
    extractTextForReference (fun _ => .error "a") (fun _ => .error "b") "<DIV"
      ⟨1, "", "", "", "", "", "", ""⟩ = ("", "Error parsing XML: b") := by
  refine ⟨?_, ?_, ?_, by decide⟩
  · intro sp lp xml ref soup hx hs
    simp [extractTextForReference, hx, hs]
  · intro sp lp xml ref e soup hx hs hl
    simp [extractTextForReference, hx, hs, hl]
  · intro sp lp xml ref e1 e2 hx hs hl
    simp [extractTextForReference, hx, hs, hl]

/-- Which code path of `_process_agency_references` produced an analysis
invocation: `fresh` is the guarded call after extraction or a cross-title
cache hit (the `if ref_text:` block), `cached` is the same-title reuse branch
(the `if ref_key in processed_refs_for_title:` block). -/
inductive PathTag : Type where
  | fresh
  | cached
deriving DecidableEq, Repr

/-- The mutable state of one `_process_agency_references` run, instrumented
with event logs: `cache` is `self.extracted_text_cache`, `processedPairs` is
`processed_title_agency_pairs`, `results` is `agency_results`; `extractions`
records each call of `_extract_text_for_reference` (by reference key) and
`invocations` each call of the analysis function (path, agency, key, text
passed). -/
structure ProcState (ρ : Type) where
  cache : List (RefKey × (String × String))
  processedPairs : List (String × RefKey)
  results : List (String × List (RefKey × ρ))
  extractions : List RefKey
  invocations : List (PathTag × String × RefKey × String)

def initProcState {ρ : Type} : ProcState ρ := ⟨[], [], [], [], []⟩

/-- The `(agency, ReferenceKey)` pair of an invocation event. -/
def pairOf (e : PathTag × String × RefKey × String) : String × RefKey := (e.2.1, e.2.2.1)

/-- Store an analysis result at `agency_results[agency_slug][ref_key]`
(`agency_results` is a `defaultdict(dict)`). -/
def storeResult {ρ : Type} (agency : String) (k : RefKey) (r : ρ)
    (res : List (String × List (RefKey × ρ))) : List (String × List (RefKey × ρ)) :=
  match lookupA agency res with
  | none => res ++ [(agency, [(k, r)])]
  | some inner => setA agency (setA k r inner) res

/-- Invoke the analysis function and store its result when it is non-null
(Python truthiness on the returned dictionary is modelled by `Option`). -/
def invokeStore {ρ : Type} (af : String → RefKey → String → String → Option ρ)
    (tag : PathTag) (agency : String) (k : RefKey) (t d : String)
    (st : ProcState ρ) : ProcState ρ :=
  let st' := { st with invocations := st.invocations ++ [(tag, agency, k, t)] }
  match af agency k t d with
  | some r => { st' with results := storeResult agency k r st'.results }
  | none => st'

/-- Per-title processing state: the run state plus `processed_refs_for_title`,
which is reset for every title. -/
structure TitleState (ρ : Type) where
  st : ProcState ρ
  perTitle : List RefKey

/-- One iteration of the inner loop of `_process_agency_references` over a
`(agency_slug, ref)` entry of the current title: the global
`(agency, ref_key)` dedup guard, the same-title reuse branch, lazy extraction
into the process-wide cache, and the guarded analysis invocation. -/
def processEntry {ρ : Type} (af : String → RefKey → String → String → Option ρ)
    (ef : String → CfrRef → String × String) (xml : String)
    (ts : TitleState ρ) (e : String × CfrRef) : TitleState ρ :=
  let agency := e.1
  let k := createRefKey e.2
  if (agency, k) ∈ ts.st.processedPairs then ts
  else
    let st1 := { ts.st with processedPairs := ts.st.processedPairs ++ [(agency, k)] }
    if k ∈ ts.perTitle then
      match lookupA k st1.cache with
      | some td => { ts with st := invokeStore af .cached agency k td.1 td.2 st1 }
      | none => { ts with st := st1 }
    else
      match lookupA k st1.cache with
      | none =>
        let td := ef xml e.2
        let st2 := { st1 with cache := setA k td st1.cache
                              extractions := st1.extractions ++ [k] }
        let perTitle2 := ts.perTitle ++ [k]
        if td.1 ≠ "" then ⟨invokeStore af .fresh agency k td.1 td.2 st2, perTitle2⟩
        else ⟨st2, perTitle2⟩
      | some td =>
        if td.1 ≠ "" then ⟨invokeStore af .fresh agency k td.1 td.2 st1, ts.perTitle⟩
        else ⟨st1, ts.perTitle⟩

/-- One iteration of the outer loop: load the title's XML (the loader returns
`""` for a missing title, which is skipped with a warning), then process the
title's `(agency, ref)` entries with a fresh `processed_refs_for_title`. -/
def processTitle {ρ : Type} (af : String → RefKey → String → String → Option ρ)
    (ef : String → CfrRef → String × String) (loadTitle : Nat → String)
    (st : ProcState ρ) (entry : Nat × List (String × CfrRef)) : ProcState ρ :=
  let xml := loadTitle entry.1
  if xml = "" then st
  else (entry.2.foldl (processEntry af ef xml) ⟨st, []⟩).st

/-- Insertion of a number into a sorted list, for `sorted(...)`. -/
def insertSorted (n : Nat) : List Nat → List Nat
  | [] => [n]
  | m :: rest => if n ≤ m then n :: m :: rest else m :: insertSorted n rest

/-- Sorting of the title numbers, for `sorted(title_to_agencies.keys())`. -/
def sortNats : List Nat → List Nat
  | [] => []
  | n :: rest => insertSorted n (sortNats rest)

/-- Embedding of step 2 of `_process_agency_references`: the inverse mapping
from title numbers to the `(agency_slug, ref)` pairs citing them, falsy
(zero) titles skipped, titles in ascending order. -/
def titleToAgencies (agencyRefs : List (String × List CfrRef)) :
    List (Nat × List (String × CfrRef)) :=
  let pairs := (agencyRefs.flatMap (fun p => p.2.map (fun r => (p.1, r)))).filter
    (fun p => p.2.title ≠ 0)
  let titles := sortNats ((pairs.map (fun p => p.2.title)).dedup)
  titles.map (fun t => (t, pairs.filter (fun p => p.2.title = t)))

/-- Embedding of `_process_agency_references`: group the references by title
and process one title at a time, starting from empty caches and logs.  The
text extractor `ef`, the analysis function `af` and the XML-by-title loader
are the source's collaborators, passed as parameters. -/
def processAgencyReferences {ρ : Type} (af : String → RefKey → String → String → Option ρ)
    (ef : String → CfrRef → String × String) (loadTitle : Nat → String)
    (agencyRefs : List (String × List CfrRef)) : ProcState ρ :=
  (titleToAgencies agencyRefs).foldl (processTitle af ef loadTitle) initProcState

theorem mem_insertSorted (a n : Nat) (l : List Nat) :
    a ∈ insertSorted n l ↔ a = n ∨ a ∈ l := by
  induction l with
  | nil => simp [insertSorted]
  | cons m rest ih =>
    by_cases h : n ≤ m
    · simp [insertSorted, h]
    · simp only [insertSorted, if_neg h, List.mem_cons, ih]
      tauto

theorem mem_sortNats (a : Nat) (l : List Nat) : a ∈ sortNats l ↔ a ∈ l := by
  induction l with
  | nil => simp [sortNats]
  | cons n rest ih => simp [sortNats, mem_insertSorted, ih]

theorem mem_titleToAgencies {agencyRefs : List (String × List CfrRef)} {A : String}
    {refsA : List CfrRef} {refA : CfrRef} (hA : (A, refsA) ∈ agencyRefs)
    (hr : refA ∈ refsA) (ht : refA.title ≠ 0) :
    ∃ entries, (refA.title, entries) ∈ titleToAgencies agencyRefs ∧ (A, refA) ∈ entries := by
  refine ⟨((agencyRefs.flatMap (fun p => p.2.map (fun r => (p.1, r)))).filter
      (fun p => p.2.title ≠ 0)).filter (fun p => p.2.title = refA.title), ?_, ?_⟩
  · have hmem : refA.title ∈ sortNats (((((agencyRefs.flatMap
        (fun p => p.2.map (fun r => (p.1, r)))).filter
        (fun p => p.2.title ≠ 0))).map (fun p => p.2.title)).dedup) := by
      rw [mem_sortNats, List.mem_dedup]
      refine List.mem_map.mpr ⟨(A, refA), ?_, rfl⟩
      refine List.mem_filter.mpr ⟨?_, by simpa using ht⟩
      exact List.mem_flatMap.mpr ⟨(A, refsA), hA, List.mem_map.mpr ⟨refA, hr, rfl⟩⟩
    exact List.mem_map.mpr ⟨refA.title, hmem, rfl⟩
  · refine List.mem_filter.mpr ⟨?_, by simp⟩
    refine List.mem_filter.mpr ⟨?_, by simpa using ht⟩
    exact List.mem_flatMap.mpr ⟨(A, refsA), hA, List.mem_map.mpr ⟨refA, hr, rfl⟩⟩

/-- Run invariant of the deduplicating processor: extraction events are
deduplicated and cached, invocation events are deduplicated per
`(agency, key)` pair and covered by the processed-pair set, processed pairs
have cached text, cached keys were all extracted in this run, and every
guarded-path invocation carries non-empty text. -/
structure ProcInv {ρ : Type} (st : ProcState ρ) : Prop where
  extNodup : st.extractions.Nodup
  extCached : ∀ k ∈ st.extractions, (lookupA k st.cache).isSome
  invNodup : (st.invocations.map pairOf).Nodup
  invProcessed : ∀ e ∈ st.invocations, pairOf e ∈ st.processedPairs
  pairCached : ∀ p ∈ st.processedPairs, (lookupA p.2 st.cache).isSome
  cacheExt : ∀ k, (lookupA k st.cache).isSome → k ∈ st.extractions
  freshNonempty : ∀ e ∈ st.invocations, e.1 = PathTag.fresh → e.2.2.2 ≠ ""

/-- Per-title invariant: the run invariant plus the fact that every key in
`processed_refs_for_title` has cached text. -/
structure TitleInv {ρ : Type} (ts : TitleState ρ) : Prop where
  proc : ProcInv ts.st
  perCached : ∀ k ∈ ts.perTitle, (lookupA k ts.st.cache).isSome

theorem invokeStore_cache {ρ : Type} (af : String → RefKey → String → String → Option ρ)
    (tag : PathTag) (a : String) (k : RefKey) (t d : String) (st : ProcState ρ) :
    (invokeStore af tag a k t d st).cache = st.cache := by
  unfold invokeStore
  cases af a k t d <;> rfl

theorem invokeStore_pairs {ρ : Type} (af : String → RefKey → String → String → Option ρ)
    (tag : PathTag) (a : String) (k : RefKey) (t d : String) (st : ProcState ρ) :
    (invokeStore af tag a k t d st).processedPairs = st.processedPairs := by
  unfold invokeStore
  cases af a k t d <;> rfl

theorem invokeStore_extractions {ρ : Type} (af : String → RefKey → String → String → Option ρ)
    (tag : PathTag) (a : String) (k : RefKey) (t d : String) (st : ProcState ρ) :
    (invokeStore af tag a k t d st).extractions = st.extractions := by
  unfold invokeStore
  cases af a k t d <;> rfl

theorem invokeStore_invocations {ρ : Type} (af : String → RefKey → String → String → Option ρ)
    (tag : PathTag) (a : String) (k : RefKey) (t d : String) (st : ProcState ρ) :
    (invokeStore af tag a k t d st).invocations = st.invocations ++ [(tag, a, k, t)] := by
  unfold invokeStore
  cases af a k t d <;> rfl

theorem ProcInv.invokeStore {ρ : Type} {st : ProcState ρ} (h : ProcInv st)
    (af : String → RefKey → String → String → Option ρ) (tag : PathTag)
    (a : String) (k : RefKey) (t d : String)
    (hpair : (a, k) ∈ st.processedPairs)
    (hnew : (a, k) ∉ st.invocations.map pairOf)
    (hfresh : tag = PathTag.fresh → t ≠ "") :
    ProcInv (invokeStore af tag a k t d st) := by
  constructor
  · rw [invokeStore_extractions]; exact h.extNodup
  · rw [invokeStore_extractions, invokeStore_cache]; exact h.extCached
  · rw [invokeStore_invocations, List.map_append, List.nodup_append]
    refine ⟨h.invNodup, by simp [pairOf], ?_⟩
    intro p hp
    simp only [List.map_cons, List.map_nil, List.mem_singleton]
    intro hpe
    subst hpe
    simp only [pairOf] at hp
    exact hnew hp
  · rw [invokeStore_invocations, invokeStore_pairs]
    intro e he
    rcases List.mem_append.mp he with he | he
    · exact h.invProcessed e he
    · simp only [List.mem_singleton] at he
      subst he
      exact hpair
  · rw [invokeStore_pairs, invokeStore_cache]; exact h.pairCached
  · rw [invokeStore_extractions, invokeStore_cache]; exact h.cacheExt
  · rw [invokeStore_invocations]
    intro e he htag
    rcases List.mem_append.mp he with he | he
    · exact h.freshNonempty e he htag
    · simp only [List.mem_singleton] at he
      subst he
      exact hfresh htag

/-- State after the global dedup guard admits a pair: the pair is recorded. -/
def addPair {ρ : Type} (a : String) (k : RefKey) (st : ProcState ρ) : ProcState ρ :=
  { st with processedPairs := st.processedPairs ++ [(a, k)] }

/-- State after a fresh extraction: the pair is recorded, the extracted text
is cached under the key, and the extraction event is logged. -/
def extractState {ρ : Type} (a : String) (k : RefKey) (td : String × String)
    (st : ProcState ρ) : ProcState ρ :=
  { st with
      processedPairs := st.processedPairs ++ [(a, k)]
      cache := setA k td st.cache
      extractions := st.extractions ++ [k] }

section ProcessEntryCases

variable {ρ : Type} (af : String → RefKey → String → String → Option ρ)
variable (ef : String → CfrRef → String × String) (xml : String)
variable (ts : TitleState ρ) (e : String × CfrRef)

theorem processEntry_mem (hmem : (e.1, createRefKey e.2) ∈ ts.st.processedPairs) :
    processEntry af ef xml ts e = ts := by
  unfold processEntry
  simp [hmem]

theorem processEntry_per_some (hmem : (e.1, createRefKey e.2) ∉ ts.st.processedPairs)
    (hper : createRefKey e.2 ∈ ts.perTitle) {td : String × String}
    (hc : lookupA (createRefKey e.2) ts.st.cache = some td) :
    processEntry af ef xml ts e =
      ⟨invokeStore af .cached e.1 (createRefKey e.2) td.1 td.2
        (addPair e.1 (createRefKey e.2) ts.st), ts.perTitle⟩ := by
  unfold processEntry addPair
  simp [hmem, hper, hc]

theorem processEntry_per_none (hmem : (e.1, createRefKey e.2) ∉ ts.st.processedPairs)
    (hper : createRefKey e.2 ∈ ts.perTitle)
    (hc : lookupA (createRefKey e.2) ts.st.cache = none) :
    processEntry af ef xml ts e = ⟨addPair e.1 (createRefKey e.2) ts.st, ts.perTitle⟩ := by
  unfold processEntry addPair
  simp [hmem, hper, hc]

theorem processEntry_extract_pos (hmem : (e.1, createRefKey e.2) ∉ ts.st.processedPairs)
    (hper : createRefKey e.2 ∉ ts.perTitle)
    (hc : lookupA (createRefKey e.2) ts.st.cache = none)
    (htext : (ef xml e.2).1 ≠ "") :
    processEntry af ef xml ts e =
      ⟨invokeStore af .fresh e.1 (createRefKey e.2) (ef xml e.2).1 (ef xml e.2).2
        (extractState e.1 (createRefKey e.2) (ef xml e.2) ts.st),
       ts.perTitle ++ [createRefKey e.2]⟩ := by
  unfold processEntry extractState
  simp [hmem, hper, hc, htext]

theorem processEntry_extract_neg (hmem : (e.1, createRefKey e.2) ∉ ts.st.processedPairs)
    (hper : createRefKey e.2 ∉ ts.perTitle)
    (hc : lookupA (createRefKey e.2) ts.st.cache = none)
    (htext : (ef xml e.2).1 = "") :
    processEntry af ef xml ts e =
      ⟨extractState e.1 (createRefKey e.2) (ef xml e.2) ts.st,
       ts.perTitle ++ [createRefKey e.2]⟩ := by
  unfold processEntry extractState
  simp [hmem, hper, hc, htext]

theorem processEntry_hit_pos (hmem : (e.1, createRefKey e.2) ∉ ts.st.processedPairs)
    (hper : createRefKey e.2 ∉ ts.perTitle) {td : String × String}
    (hc : lookupA (createRefKey e.2) ts.st.cache = some td) (htext : td.1 ≠ "") :
    processEntry af ef xml ts e =
      ⟨invokeStore af .fresh e.1 (createRefKey e.2) td.1 td.2
        (addPair e.1 (createRefKey e.2) ts.st), ts.perTitle⟩ := by
  unfold processEntry addPair
  simp [hmem, hper, hc, htext]

theorem processEntry_hit_neg (hmem : (e.1, createRefKey e.2) ∉ ts.st.processedPairs)
    (hper : createRefKey e.2 ∉ ts.perTitle) {td : String × String}
    (hc : lookupA (createRefKey e.2) ts.st.cache = some td) (htext : td.1 = "") :
    processEntry af ef xml ts e =
      ⟨addPair e.1 (createRefKey e.2) ts.st, ts.perTitle⟩ := by
  unfold processEntry addPair
  simp [hmem, hper, hc, htext]

end ProcessEntryCases

theorem ProcInv.addPair {ρ : Type} {st : ProcState ρ} (h : ProcInv st) (a : String)
    (k : RefKey) (hc : (lookupA k st.cache).isSome) : ProcInv (addPair a k st) := by
  constructor
  · exact h.extNodup
  · exact h.extCached
  · exact h.invNodup
  · intro e he
    exact List.mem_append_left _ (h.invProcessed e he)
  · intro p hp
    rcases List.mem_append.mp hp with hp | hp
    · exact h.pairCached p hp
    · simp only [List.mem_singleton] at hp
      subst hp
      exact hc
  · exact h.cacheExt
  · exact h.freshNonempty

theorem ProcInv.extractState {ρ : Type} {st : ProcState ρ} (h : ProcInv st) (a : String)
    (k : RefKey) (td : String × String) (hc : lookupA k st.cache = none) :
    ProcInv (extractState a k td st) := by
  have hknotext : k ∉ st.extractions := by
    intro hk
    have := h.extCached k hk
    rw [hc] at this
    simp at this
  constructor
  · simp only [ECFR.extractState, List.nodup_append]
    exact ⟨h.extNodup, List.nodup_singleton _, by simpa using hknotext⟩
  · intro k' hk'
    simp only [ECFR.extractState] at hk' ⊢
    rcases List.mem_append.mp hk' with hk' | hk'
    · exact isSome_lookupA_setA _ _ _ _ (h.extCached k' hk')
    · simp only [List.mem_singleton] at hk'
      subst hk'
      simp [lookupA_setA_self]
  · exact h.invNodup
  · intro e he
    exact List.mem_append_left _ (h.invProcessed e he)
  · intro p hp
    simp only [ECFR.extractState] at hp ⊢
    rcases List.mem_append.mp hp with hp | hp
    · exact isSome_lookupA_setA _ _ _ _ (h.pairCached p hp)
    · simp only [List.mem_singleton] at hp
      subst hp
      simp [lookupA_setA_self]
  · intro k' hk'
    simp only [ECFR.extractState] at hk' ⊢
    by_cases hkk : k = k'
    · subst hkk
      simp
    · rw [lookupA_setA_ne _ _ _ _ hkk] at hk'
      exact List.mem_append_left _ (h.cacheExt k' hk')
  · exact h.freshNonempty

theorem pair_not_invoked {ρ : Type} {st : ProcState ρ} (h : ProcInv st) {a : String}
    {k : RefKey} (hmem : (a, k) ∉ st.processedPairs) :
    (a, k) ∉ st.invocations.map pairOf := by
  intro hk
  rcases List.mem_map.mp hk with ⟨e, he, hpe⟩
  exact hmem (hpe ▸ h.invProcessed e he)

theorem TitleInv.processEntry {ρ : Type} {ts : TitleState ρ} (h : TitleInv ts)
    (af : String → RefKey → String → String → Option ρ)
    (ef : String → CfrRef → String × String) (xml : String) (e : String × CfrRef) :
    TitleInv (processEntry af ef xml ts e) := by
  by_cases hmem : (e.1, createRefKey e.2) ∈ ts.st.processedPairs
  · rw [processEntry_mem af ef xml ts e hmem]
    exact h
  · by_cases hper : createRefKey e.2 ∈ ts.perTitle
    · cases hc : lookupA (createRefKey e.2) ts.st.cache with
      | none =>
        have := h.perCached _ hper
        rw [hc] at this
        simp at this
      | some td =>
        rw [processEntry_per_some af ef xml ts e hmem hper hc]
        have hinv := (h.proc.addPair e.1 (createRefKey e.2) (by simp [hc])).invokeStore
          af .cached e.1 (createRefKey e.2) td.1 td.2
          (by simp [ECFR.addPair])
          (pair_not_invoked h.proc hmem)
          (by intro hx; cases hx)
        refine ⟨hinv, ?_⟩
        intro k' hk'
        rw [invokeStore_cache]
        exact h.perCached k' hk'
    · cases hc : lookupA (createRefKey e.2) ts.st.cache with
      | none =>
        by_cases htext : (ef xml e.2).1 = ""
        · rw [processEntry_extract_neg af ef xml ts e hmem hper hc htext]
          refine ⟨h.proc.extractState e.1 (createRefKey e.2) (ef xml e.2) hc, ?_⟩
          intro k' hk'
          simp only [ECFR.extractState]
          rcases List.mem_append.mp hk' with hk' | hk'
          · exact isSome_lookupA_setA _ _ _ _ (h.perCached k' hk')
          · simp only [List.mem_singleton] at hk'
            subst hk'
            simp [lookupA_setA_self]
        · rw [processEntry_extract_pos af ef xml ts e hmem hper hc htext]
          have hbase := h.proc.extractState e.1 (createRefKey e.2) (ef xml e.2) hc
          have hinv := hbase.invokeStore af .fresh e.1 (createRefKey e.2)
            (ef xml e.2).1 (ef xml e.2).2
            (by simp [ECFR.extractState])
            (pair_not_invoked h.proc hmem)
            (fun _ => htext)
          refine ⟨hinv, ?_⟩
          intro k' hk'
          rw [invokeStore_cache]
          simp only [ECFR.extractState]
          rcases List.mem_append.mp hk' with hk' | hk'
          · exact isSome_lookupA_setA _ _ _ _ (h.perCached k' hk')
          · simp only [List.mem_singleton] at hk'
            subst hk'
            simp [lookupA_setA_self]
      | some td =>
        have hbase := h.proc.addPair e.1 (createRefKey e.2) (by simp [hc])
        by_cases htext : td.1 = ""
        · rw [processEntry_hit_neg af ef xml ts e hmem hper hc htext]
          exact ⟨hbase, fun k' hk' => h.perCached k' hk'⟩
        · rw [processEntry_hit_pos af ef xml ts e hmem hper hc htext]
          have hinv := hbase.invokeStore af .fresh e.1 (createRefKey e.2) td.1 td.2
            (by simp [ECFR.addPair])
            (pair_not_invoked h.proc hmem)
            (fun _ => htext)
          refine ⟨hinv, ?_⟩
          intro k' hk'
          rw [invokeStore_cache]
          exact h.perCached k' hk'

theorem titleInv_foldl {ρ : Type} (af : String → RefKey → String → String → Option ρ)
    (ef : String → CfrRef → String × String) (xml : String) :
    ∀ (l : List (String × CfrRef)) (ts : TitleState ρ), TitleInv ts →
      TitleInv (l.foldl (processEntry af ef xml) ts)
  | [], _, h => h
  | e :: rest, ts, h =>
    titleInv_foldl af ef xml rest (processEntry af ef xml ts e) (h.processEntry af ef xml e)

theorem procInv_processTitle {ρ : Type} {st : ProcState ρ} (h : ProcInv st)
    (af : String → RefKey → String → String → Option ρ)
    (ef : String → CfrRef → String × String) (loadTitle : Nat → String)
    (entry : Nat × List (String × CfrRef)) :
    ProcInv (processTitle af ef loadTitle st entry) := by
  unfold processTitle
  by_cases hx : loadTitle entry.1 = ""
  · simp [hx, h]
  · simp only [if_neg hx]
    exact (titleInv_foldl af ef (loadTitle entry.1) entry.2 ⟨st, []⟩
      ⟨h, by intro k hk; simp at hk⟩).proc

theorem procInv_init {ρ : Type} : ProcInv (initProcState : ProcState ρ) := by
  constructor <;> simp [initProcState, lookupA]

theorem procInv_foldTitles {ρ : Type} (af : String → RefKey → String → String → Option ρ)
    (ef : String → CfrRef → String × String) (loadTitle : Nat → String) :
    ∀ (tl : List (Nat × List (String × CfrRef))) (st : ProcState ρ), ProcInv st →
      ProcInv (tl.foldl (processTitle af ef loadTitle) st)
  | [], _, h => h
  | t :: rest, _, h =>
    procInv_foldTitles af ef loadTitle rest _ (procInv_processTitle h af ef loadTitle t)

theorem procInv_run {ρ : Type} (af : String → RefKey → String → String → Option ρ)
    (ef : String → CfrRef → String × String) (loadTitle : Nat → String)
    (agencyRefs : List (String × List CfrRef)) :
    ProcInv (processAgencyReferences af ef loadTitle agencyRefs) :=
  procInv_foldTitles af ef loadTitle _ _ procInv_init

theorem cache_mono_processEntry {ρ : Type}
    (af : String → RefKey → String → String → Option ρ)
    (ef : String → CfrRef → String × String) (xml : String)
    (ts : TitleState ρ) (e : String × CfrRef) (k : RefKey)
    (h : (lookupA k ts.st.cache).isSome) :
    (lookupA k (processEntry af ef xml ts e).st.cache).isSome := by
  by_cases hmem : (e.1, createRefKey e.2) ∈ ts.st.processedPairs
  · rwa [processEntry_mem af ef xml ts e hmem]
  · by_cases hper : createRefKey e.2 ∈ ts.perTitle
    · cases hc : lookupA (createRefKey e.2) ts.st.cache with
      | none =>
        rw [processEntry_per_none af ef xml ts e hmem hper hc]
        exact h
      | some td =>
        rw [processEntry_per_some af ef xml ts e hmem hper hc]
        simpa [invokeStore_cache, addPair] using h
    · cases hc : lookupA (createRefKey e.2) ts.st.cache with
      | none =>
        by_cases htext : (ef xml e.2).1 = ""
        · rw [processEntry_extract_neg af ef xml ts e hmem hper hc htext]
          exact isSome_lookupA_setA _ _ _ _ h
        · rw [processEntry_extract_pos af ef xml ts e hmem hper hc htext]
          simp only [invokeStore_cache, extractState]
          exact isSome_lookupA_setA _ _ _ _ h
      | some td =>
        by_cases htext : td.1 = ""
        · rw [processEntry_hit_neg af ef xml ts e hmem hper hc htext]
          exact h
        · rw [processEntry_hit_pos af ef xml ts e hmem hper hc htext]
          simpa [invokeStore_cache, addPair] using h

theorem cache_mono_foldl {ρ : Type} (af : String → RefKey → String → String → Option ρ)
    (ef : String → CfrRef → String × String) (xml : String) :
    ∀ (l : List (String × CfrRef)) (ts : TitleState ρ) (k : RefKey),
      (lookupA k ts.st.cache).isSome →
      (lookupA k ((l.foldl (processEntry af ef xml) ts)).st.cache).isSome
  | [], _, _, h => h
  | e :: rest, ts, k, h =>
    cache_mono_foldl af ef xml rest _ k (cache_mono_processEntry af ef xml ts e k h)

theorem cache_mono_processTitle {ρ : Type}
    (af : String → RefKey → String → String → Option ρ)
    (ef : String → CfrRef → String × String) (loadTitle : Nat → String)
    (st : ProcState ρ) (entry : Nat × List (String × CfrRef)) (k : RefKey)
    (h : (lookupA k st.cache).isSome) :
    (lookupA k (processTitle af ef loadTitle st entry).cache).isSome := by
  unfold processTitle
  by_cases hx : loadTitle entry.1 = ""
  · simpa [hx] using h
  · simp only [if_neg hx]
    exact cache_mono_foldl af ef (loadTitle entry.1) entry.2 ⟨st, []⟩ k h

theorem cached_after_entry {ρ : Type}
    (af : String → RefKey → String → String → Option ρ)
    (ef : String → CfrRef → String × String) (xml : String)
    (ts : TitleState ρ) (e : String × CfrRef) (h : TitleInv ts) :
    (lookupA (createRefKey e.2) (processEntry af ef xml ts e).st.cache).isSome := by
  by_cases hmem : (e.1, createRefKey e.2) ∈ ts.st.processedPairs
  · rw [processEntry_mem af ef xml ts e hmem]
    exact h.proc.pairCached _ hmem
  · by_cases hper : createRefKey e.2 ∈ ts.perTitle
    · cases hc : lookupA (createRefKey e.2) ts.st.cache with
      | none =>
        have := h.perCached _ hper
        rw [hc] at this
        simp at this
      | some td =>
        rw [processEntry_per_some af ef xml ts e hmem hper hc]
        simp [invokeStore_cache, addPair, hc]
    · cases hc : lookupA (createRefKey e.2) ts.st.cache with
      | none =>
        by_cases htext : (ef xml e.2).1 = ""
        · rw [processEntry_extract_neg af ef xml ts e hmem hper hc htext]
          simp [extractState, lookupA_setA_self]
        · rw [processEntry_extract_pos af ef xml ts e hmem hper hc htext]
          simp [invokeStore_cache, extractState, lookupA_setA_self]
      | some td =>
        by_cases htext : td.1 = ""
        · rw [processEntry_hit_neg af ef xml ts e hmem hper hc htext]
          simp [addPair, hc]
        · rw [processEntry_hit_pos af ef xml ts e hmem hper hc htext]
          simp [invokeStore_cache, addPair, hc]

theorem cached_after_fold {ρ : Type}
    (af : String → RefKey → String → String → Option ρ)
    (ef : String → CfrRef → String × String) (xml : String) :
    ∀ (l : List (String × CfrRef)) (ts : TitleState ρ), TitleInv ts →
      ∀ e ∈ l, (lookupA (createRefKey e.2)
        ((l.foldl (processEntry af ef xml) ts)).st.cache).isSome := by
  intro l
  induction l with
  | nil => intro ts _ e he; simp at he
  | cons e0 rest ih =>
    intro ts h e he
    rcases List.mem_cons.mp he with he | he
    · rw [he]
      exact cache_mono_foldl af ef xml rest _ _ (cached_after_entry af ef xml ts e0 h)
    · exact ih (processEntry af ef xml ts e0) (h.processEntry af ef xml e0) e he

theorem cache_mono_foldTitles {ρ : Type}
    (af : String → RefKey → String → String → Option ρ)
    (ef : String → CfrRef → String × String) (loadTitle : Nat → String) :
    ∀ (tl : List (Nat × List (String × CfrRef))) (st : ProcState ρ) (k : RefKey),
      (lookupA k st.cache).isSome →
      (lookupA k ((tl.foldl (processTitle af ef loadTitle) st)).cache).isSome
  | [], _, _, h => h
  | t :: rest, st, k, h =>
    cache_mono_foldTitles af ef loadTitle rest _ k
      (cache_mono_processTitle af ef loadTitle st t k h)

theorem cached_after_titles {ρ : Type}
    (af : String → RefKey → String → String → Option ρ)
    (ef : String → CfrRef → String × String) (loadTitle : Nat → String) :
    ∀ (tl : List (Nat × List (String × CfrRef))) (st : ProcState ρ), ProcInv st →
      ∀ t entries, (t, entries) ∈ tl → loadTitle t ≠ "" → ∀ e ∈ entries,
      (lookupA (createRefKey e.2)
        ((tl.foldl (processTitle af ef loadTitle) st)).cache).isSome := by
  intro tl
  induction tl with
  | nil => intro st _ t entries hmem; simp at hmem
  | cons t0 rest ih =>
    intro st h t entries hmem hload e he
    rcases List.mem_cons.mp hmem with hmem | hmem
    · subst hmem
      have hstep : (lookupA (createRefKey e.2)
          (processTitle af ef loadTitle st (t, entries)).cache).isSome := by
        unfold processTitle
        simp only [if_neg hload]
        exact cached_after_fold af ef (loadTitle t) entries ⟨st, []⟩
          ⟨h, by intro k hk; simp at hk⟩ e he
      simp only [List.foldl_cons]
      exact cache_mono_foldTitles af ef loadTitle rest _ _ hstep
    · exact ih (processTitle af ef loadTitle st t0) (procInv_processTitle h af ef loadTitle t0)
        t entries hmem hload e he

/-- CLAIM C1.  In every run of `_process_agency_references`, each distinct
`ReferenceKey` is extracted at most once, the analysis function is invoked at
most once per `(agency, ReferenceKey)` pair, and whenever two agencies
declare references with the same key whose title has XML data, that key is
extracted exactly once; concretely, two agencies sharing one key lead to one
extraction and two analysis invocations. -/
theorem processor_dedup_invariants :
    (∀ (ρ : Type) (af : String → RefKey → String → String → Option ρ)
        (ef : String → CfrRef → String × String) (loadTitle : Nat → String)
        (agencyRefs : List (String × List CfrRef)) (k : RefKey),
        (processAgencyReferences af ef loadTitle agencyRefs).extractions.count k ≤ 1) ∧
    (∀ (ρ : Type) (af : String → RefKey → String → String → Option ρ)
        (ef : String → CfrRef → String × String) (loadTitle : Nat → String)
        (agencyRefs : List (String × List CfrRef)),
        ((processAgencyReferences af ef loadTitle agencyRefs).invocations.map pairOf).Nodup) ∧
    (∀ (ρ : Type) (af : String → RefKey → String → String → Option ρ)
        (ef : String → CfrRef → String × String) (loadTitle : Nat → String)
        (agencyRefs : List (String × List CfrRef)) (A B : String)
        (refsA refsB : List CfrRef) (refA refB : CfrRef),
        (A, refsA) ∈ agencyRefs → refA ∈ refsA → (B, refsB) ∈ agencyRefs → refB ∈ refsB →
        createRefKey refA = createRefKey refB → refA.title ≠ 0 →
        loadTitle refA.title ≠ "" →
        (processAgencyReferences af ef loadTitle agencyRefs).extractions.count
          (createRefKey refA) = 1) ∧
    ((processAgencyReferences (fun _ _ _ _ => some (1 : Nat))
        (fun _ _ => ("text", "desc")) (fun _ => "xml")
        [("a", [⟨1, "", "", "", "5", "", "", ""⟩]),
         ("b", [⟨1, "", "", "", "5", "", "", ""⟩])]).extractions =
      [⟨1, "", "", "", "5"⟩] ∧
    ((processAgencyReferences (fun _ _ _ _ => some (1 : Nat))
        (fun _ _ => ("text", "desc")) (fun _ => "xml")
        [("a", [⟨1, "", "", "", "5", "", "", ""⟩]),
         ("b", [⟨1, "", "", "", "5", "", "", ""⟩])]).invocations.map pairOf) =
      [("a", ⟨1, "", "", "", "5"⟩), ("b", ⟨1, "", "", "", "5"⟩)]) := by
  refine ⟨?_, ?_, ?_, by decide, by decide⟩
  · intro ρ af ef loadTitle agencyRefs k
    exact List.nodup_iff_count_le_one.mp (procInv_run af ef loadTitle agencyRefs).extNodup k
  · intro ρ af ef loadTitle agencyRefs
    exact (procInv_run af ef loadTitle agencyRefs).invNodup
  · intro ρ af ef loadTitle agencyRefs A B refsA refsB refA refB hA hrA hB hrB hkey ht hload
    obtain ⟨entries, hmem, hent⟩ := mem_titleToAgencies hA hrA ht
    have hcache : (lookupA (createRefKey refA)
        (processAgencyReferences af ef loadTitle agencyRefs).cache).isSome := by
      have := cached_after_titles af ef loadTitle (titleToAgencies agencyRefs)
        initProcState procInv_init refA.title entries hmem hload (A, refA) hent
      exact this
    have hext := (procInv_run af ef loadTitle agencyRefs).cacheExt _ hcache
    have hnodup := (procInv_run af ef loadTitle agencyRefs).extNodup
    exact List.count_eq_one_of_mem hnodup hext

/-- CLAIM C9 counterexample.  With two agencies declaring the same reference
whose extraction yields empty text, the second agency's entry takes the
same-title cached-text reuse path, and there the analysis function IS invoked
with the empty cached text — contradicting the claim that an empty extraction
contributes no analysis invocation on the cached path. -/
theorem empty_text_invocation_counterexample :
    (PathTag.cached, "b", (⟨1, "", "", "", "5"⟩ : RefKey), "") ∈
      (processAgencyReferences (fun _ _ _ _ => some (1 : Nat))
        (fun _ _ => ("", "desc")) (fun _ => "xml")
        [("a", [⟨1, "", "", "", "5", "", "", ""⟩]),
         ("b", [⟨1, "", "", "", "5", "", "", ""⟩])]).invocations ∧
    lookupA (⟨1, "", "", "", "5"⟩ : RefKey)
      (processAgencyReferences (fun _ _ _ _ => some (1 : Nat))
        (fun _ _ => ("", "desc")) (fun _ => "xml")
        [("a", [⟨1, "", "", "", "5", "", "", ""⟩]),
         ("b", [⟨1, "", "", "", "5", "", "", ""⟩])]).cache = some ("", "desc") := by
  decide

/-- CLAIM C9 (amended).  On the fresh-extraction path (the `if ref_text:`
guard, also taken on cross-title cache hits) the analysis function is invoked
only with non-empty text; on the same-title cached-text reuse path it is
invoked unconditionally, even when the cached text is empty, as the concrete
run shows. -/
theorem analysis_invocation_text_guard :
    (∀ (ρ : Type) (af : String → RefKey → String → String → Option ρ)
        (ef : String → CfrRef → String × String) (loadTitle : Nat → String)
        (agencyRefs : List (String × List CfrRef)) (a : String) (k : RefKey) (t : String),
        (PathTag.fresh, a, k, t) ∈
          (processAgencyReferences af ef loadTitle agencyRefs).invocations → t ≠ "") ∧
    (processAgencyReferences (fun _ _ _ _ => some (1 : Nat))
        (fun _ _ => ("", "desc")) (fun _ => "xml")
        [("a", [⟨1, "", "", "", "5", "", "", ""⟩]),
         ("b", [⟨1, "", "", "", "5", "", "", ""⟩])]).invocations =
      [(PathTag.cached, "b", ⟨1, "", "", "", "5"⟩, "")] := by
  refine ⟨?_, by decide⟩
  intro ρ af ef loadTitle agencyRefs a k t hmem
  exact (procInv_run af ef loadTitle agencyRefs).freshNonempty _ hmem rfl

/-- Per-agency metric data for `_roll_up_agency_totals`: the agency dict's
numeric fields (`metrics`, holding the `metric_key` entry among others) and
its optional `"references"` dictionary, mapping reference keys to their own
numeric-field dictionaries. -/
structure AgencyData where
  metrics : List (String × Nat)
  refs : Option (List (RefKey × List (String × Nat)))
deriving DecidableEq, Repr

/-- Update the data of an agency already present in the mapping; an absent
slug is left unchanged (the source only writes to slugs it has checked). -/
def updateAgency (s : String) (f : AgencyData → AgencyData)
    (m : List (String × AgencyData)) : List (String × AgencyData) :=
  match lookupA s m with
  | none => m
  | some d => setA s (f d) m

/-- One `defaultdict(list)` insertion of `parent_to_children[parent].append(child)`. -/
def addChild (p c : String) (acc : List (String × List String)) :
    List (String × List String) :=
  match lookupA p acc with
  | none => acc ++ [(p, [c])]
  | some cs => setA p (cs ++ [c]) acc

/-- The `parent -> [children]` mapping built from the child-to-parent
hierarchy items. -/
def parentToChildren (hierarchy : List (String × String)) : List (String × List String) :=
  hierarchy.foldl (fun acc cp => addChild cp.2 cp.1 acc) []

/-- The snapshot `agency_refs` taken before any mutation: each agency's set
of reference keys (sets are embedded as deduplicated lists). -/
def refKeysSnapshot (m : List (String × AgencyData)) : List (String × List RefKey) :=
  m.map (fun sd => (sd.1,
    match sd.2.refs with
    | some rs => (rs.map Prod.fst).dedup
    | none => []))

/-- The references dictionary of a slug, empty when the slug or the
`"references"` key is absent (a read-only convenience for specifications). -/
def prefs (s : String) (m : List (String × AgencyData)) :
    List (RefKey × List (String × Nat)) :=
  match lookupA s m with
  | some d => d.refs.getD []
  | none => []

/-- Line 590-591: create the parent's `references` dict when absent. -/
def ensureRefsFun (d : AgencyData) : AgencyData :=
  match d.refs with
  | none => { d with refs := some [] }
  | some _ => d

/-- Lines 592-593 and 606-612: create the entry at the key when absent. -/
def ensureEntryFun (k : RefKey) (d : AgencyData) : AgencyData :=
  match d.refs with
  | none => d
  | some rs =>
    if (lookupA k rs).isNone then { d with refs := some (setA k [] rs) }
    else d

/-- Lines 613-621: initialize the entry's metric to zero when absent. -/
def entryMetricZeroFun (k : RefKey) (rdk : String) (d : AgencyData) : AgencyData :=
  match d.refs with
  | none => d
  | some rs =>
    match lookupA k rs with
    | none => d
    | some e =>
      if (lookupA rdk e).isNone then
        { d with refs := some (setA k (setA rdk 0 e) rs) }
      else d

/-- Lines 623-626: add the child's value to the parent's entry metric. -/
def entryMetricAddFun (k : RefKey) (rdk : String) (v : Nat) (d : AgencyData) : AgencyData :=
  match d.refs with
  | none => d
  | some rs =>
    match lookupA k rs with
    | none => d
    | some e =>
      { d with refs := some (setA k (setA rdk ((lookupA rdk e).getD 0 + v) e) rs) }

/-- Lines 629-630: initialize the parent's total to zero when absent. -/
def metricZeroFun (metricKey : String) (d : AgencyData) : AgencyData :=
  if (lookupA metricKey d.metrics).isNone then
    { d with metrics := setA metricKey 0 d.metrics }
  else d

/-- Lines 631-633: add the child's value to the parent's total. -/
def metricAddFun (metricKey : String) (v : Nat) (d : AgencyData) : AgencyData :=
  { d with metrics := setA metricKey ((lookupA metricKey d.metrics).getD 0 + v) d.metrics }

/-- Lines 636-638: copy the child's whole reference data into the entry. -/
def copyEntryFun (k : RefKey) (crd : List (String × Nat)) (d : AgencyData) : AgencyData :=
  match d.refs with
  | none => d
  | some rs => { d with refs := some (setA k crd rs) }

/-- Lines 641-647: add the child's metric when both sides carry it. -/
def copyMetricFun (metricKey : String) (mv : Nat) (d : AgencyData) : AgencyData :=
  match lookupA metricKey d.metrics with
  | none => d
  | some cur => { d with metrics := setA metricKey (cur + mv) d.metrics }

/-- Lines 590-593 of the rollup: create the parent's `references` dict when
absent, then its entry at the key when absent. -/
def ensureRefsEntry (parent : String) (k : RefKey)
    (m : List (String × AgencyData)) : List (String × AgencyData) :=
  updateAgency parent (ensureEntryFun k) (updateAgency parent ensureRefsFun m)

/-- Lines 601-633 of the rollup (the `if ref_data_key:` branch): skip when the
child's reference data lacks the metric; otherwise initialize the parent's
entry metric to zero when absent, add the child's value to it, and add the
child's value to the parent's running total. -/
def rollupAccum (metricKey rdk : String) (parent : String) (k : RefKey)
    (childRefData : List (String × Nat))
    (m : List (String × AgencyData)) : List (String × AgencyData) :=
  if (lookupA rdk childRefData).isNone then m
  else
    let v := (lookupA rdk childRefData).getD 0
    updateAgency parent (metricAddFun metricKey v)
      (updateAgency parent (metricZeroFun metricKey)
        (updateAgency parent (entryMetricAddFun k rdk v)
          (updateAgency parent (entryMetricZeroFun k rdk)
            (updateAgency parent (ensureEntryFun k) m))))

/-- Lines 635-647 of the rollup (no `ref_data_key`): copy the child's whole
reference data into the parent's entry and, when both carry the metric key,
add the child's metric to the parent's total. -/
def rollupCopy (metricKey : String) (parent : String) (k : RefKey)
    (childRefData : List (String × Nat))
    (m : List (String × AgencyData)) : List (String × AgencyData) :=
  let m3 := updateAgency parent (copyEntryFun k childRefData) m
  match lookupA metricKey childRefData with
  | none => m3
  | some mv => updateAgency parent (copyMetricFun metricKey mv) m3

/-- The body of the `for ref_key in new_refs:` loop of
`_roll_up_agency_totals`, in source order: the guards on the child's data,
the creation of the parent's `references` dict and entry, the read of
`child_ref_data`, and then either the `ref_data_key` metric accumulation or
the whole-entry copy. -/
def processRefKey (metricKey : String) (refDataKey : Option String)
    (parent child : String) (k : RefKey)
    (m : List (String × AgencyData)) : List (String × AgencyData) :=
  match lookupA child m with
  | none => m
  | some cd =>
    match cd.refs with
    | none => m
    | some crefs =>
      if (lookupA k crefs).isNone then m
      else
        let m2 := ensureRefsEntry parent k m
        let childRefData :=
          match lookupA child m2 with
          | none => []
          | some cd2 =>
            match cd2.refs with
            | none => []
            | some crefs2 => (lookupA k crefs2).getD []
        match refDataKey with
        | some rdk => rollupAccum metricKey rdk parent k childRefData m2
        | none => rollupCopy metricKey parent k childRefData m2

/-- The body of the `for child_agency in child_agencies:` loop: skip missing
children, compute the child's not-yet-counted snapshot keys, fold the
per-reference step over them, and mark them as counted. -/
def processChild (metricKey : String) (refDataKey : Option String)
    (snapshot : List (String × List RefKey)) (parent : String)
    (acc : List (String × AgencyData) × List RefKey) (child : String) :
    List (String × AgencyData) × List RefKey :=
  if (lookupA child acc.1).isNone then acc
  else
    let childKeys := (lookupA child snapshot).getD []
    let newRefs := childKeys.filter (fun k => k ∉ acc.2)
    (newRefs.foldl (fun mm k => processRefKey metricKey refDataKey parent child k mm) acc.1,
      acc.2 ++ newRefs)

/-- The body of the `for parent_agency, child_agencies in ...` loop: skip
parents that carry no data, seed the counted set with the parent's own
snapshot keys, and fold over the children. -/
def processParent (metricKey : String) (refDataKey : Option String)
    (snapshot : List (String × List RefKey))
    (m : List (String × AgencyData)) (pc : String × List String) :
    List (String × AgencyData) :=
  if (lookupA pc.1 m).isNone then m
  else
    ((pc.2.foldl (processChild metricKey refDataKey snapshot pc.1)
      (m, (lookupA pc.1 snapshot).getD []))).1

/-- The per-reference metric sum of the final recomputation: the values of
`key` over the references that contain it. -/
def refSumWith (key : String) (rs : List (RefKey × List (String × Nat))) : Nat :=
  ((rs.filter (fun e => (lookupA key e.2).isSome)).map
    (fun e => (lookupA key e.2).getD 0)).sum

/-- The final pass of `_roll_up_agency_totals`: every agency carrying a
`references` dict has its `metric_key` total recomputed as the sum over that
dict (of the `ref_data_key` values when given, of the `metric_key` values
otherwise). -/
def recomputeTotals (metricKey : String) (refDataKey : Option String)
    (m : List (String × AgencyData)) : List (String × AgencyData) :=
  m.map (fun sd =>
    match sd.2.refs with
    | none => sd
    | some rs =>
      (sd.1, { sd.2 with metrics := (
        setA metricKey (refSumWith (refDataKey.getD metricKey) rs) sd.2.metrics) }))

/-- Embedding of `_roll_up_agency_totals`: build the parent-to-children map,
snapshot every agency's reference-key set, roll each parent's children up
under the counted-set guard, then recompute all totals.  The deep copy of the
input is the value semantics of the embedding. -/
def rollUpAgencyTotals (hierarchy : List (String × String))
    (agencyData : List (String × AgencyData)) (metricKey : String)
    (refDataKey : Option String) : List (String × AgencyData) :=
  (parentToChildren hierarchy).foldl
    (processParent metricKey refDataKey (refKeysSnapshot agencyData)) agencyData
    |> recomputeTotals metricKey refDataKey

theorem lookupA_eq_none_iff {α β : Type} [DecidableEq α] (k : α) (l : List (α × β)) :
    lookupA k l = none ↔ k ∉ l.map Prod.fst := by
  induction l with
  | nil => simp [lookupA]
  | cons p rest ih =>
    obtain ⟨k', v'⟩ := p
    by_cases h : k' = k
    · subst h
      simp [lookupA]
    · simp [lookupA, h, ih, Ne.symm h]

theorem lookupA_isSome_iff {α β : Type} [DecidableEq α] (k : α) (l : List (α × β)) :
    (lookupA k l).isSome ↔ k ∈ l.map Prod.fst := by
  rw [Option.isSome_iff_ne_none]
  constructor
  · intro h
    by_contra hm
    exact h ((lookupA_eq_none_iff k l).mpr hm)
  · intro h hn
    exact (lookupA_eq_none_iff k l).mp hn h

theorem setA_setA {α β : Type} [DecidableEq α] (k : α) (v w : β) (l : List (α × β)) :
    setA k v (setA k w l) = setA k v l := by
  induction l with
  | nil => simp [setA]
  | cons p rest ih =>
    obtain ⟨k', v'⟩ := p
    by_cases h : k' = k <;> simp [setA, h, ih]

theorem keys_setA_notMem {α β : Type} [DecidableEq α] (k : α) (v : β) (l : List (α × β))
    (h : k ∉ l.map Prod.fst) : (setA k v l).map Prod.fst = l.map Prod.fst ++ [k] := by
  induction l with
  | nil => simp [setA]
  | cons p rest ih =>
    obtain ⟨k', v'⟩ := p
    simp only [List.map_cons, List.mem_cons] at h
    push_neg at h
    simp [setA, Ne.symm h.1, ih h.2]

theorem count_keys_setA_ne {α β : Type} [DecidableEq α] (k r : α) (v : β) (l : List (α × β))
    (h : k ≠ r) : ((setA k v l).map Prod.fst).count r = (l.map Prod.fst).count r := by
  induction l with
  | nil => simp [setA, List.count_singleton, h]
  | cons p rest ih =>
    obtain ⟨k', v'⟩ := p
    by_cases hk : k' = k
    · subst hk
      simp [setA]
    · simp only [setA, if_neg hk, List.map_cons]
      rw [List.count_cons, List.count_cons, ih]

theorem keys_setA_mem_iff {α β : Type} [DecidableEq α] (k r : α) (v : β) (l : List (α × β)) :
    r ∈ (setA k v l).map Prod.fst ↔ r = k ∨ r ∈ l.map Prod.fst := by
  induction l with
  | nil => simp [setA]
  | cons p rest ih =>
    obtain ⟨k', v'⟩ := p
    by_cases hk : k' = k
    · subst hk
      simp [setA]
    · simp only [setA, if_neg hk, List.map_cons, List.mem_cons, ih]
      tauto

theorem lookupA_updateAgency_ne {s' s : String} (f : AgencyData → AgencyData)
    (m : List (String × AgencyData)) (h : s' ≠ s) :
    lookupA s' (updateAgency s f m) = lookupA s' m := by
  unfold updateAgency
  cases hm : lookupA s m with
  | none => rfl
  | some d => exact lookupA_setA_ne _ _ _ _ (Ne.symm h)

theorem lookupA_updateAgency_self (s : String) (f : AgencyData → AgencyData)
    (m : List (String × AgencyData)) :
    lookupA s (updateAgency s f m) = (lookupA s m).map f := by
  unfold updateAgency
  cases hm : lookupA s m with
  | none => simp [hm]
  | some d => simp [lookupA_setA_self]

theorem isSome_lookupA_updateAgency (s' s : String) (f : AgencyData → AgencyData)
    (m : List (String × AgencyData)) :
    (lookupA s' (updateAgency s f m)).isSome = (lookupA s' m).isSome := by
  by_cases h : s' = s
  · subst h
    rw [lookupA_updateAgency_self]
    cases lookupA s' m <;> simp
  · rw [lookupA_updateAgency_ne _ _ h]

theorem prefs_updateAgency_ne {s' s : String} (f : AgencyData → AgencyData)
    (m : List (String × AgencyData)) (h : s' ≠ s) :
    prefs s' (updateAgency s f m) = prefs s' m := by
  unfold prefs
  rw [lookupA_updateAgency_ne _ _ h]

theorem lookupA_refKeysSnapshot (s : String) (m : List (String × AgencyData)) :
    lookupA s (refKeysSnapshot m) = (lookupA s m).map (fun d =>
      match d.refs with
      | some rs => (rs.map Prod.fst).dedup
      | none => []) := by
  induction m with
  | nil => simp [refKeysSnapshot, lookupA]
  | cons p rest ih =>
    obtain ⟨s0, d0⟩ := p
    by_cases h : s0 = s <;> simp [refKeysSnapshot, lookupA, h] <;>
      simpa [refKeysSnapshot] using ih

theorem ensureRefsEntry_frame (parent : String) (k : RefKey)
    (m : List (String × AgencyData)) (s : String) (hs : s ≠ parent) :
    lookupA s (ensureRefsEntry parent k m) = lookupA s m := by
  unfold ensureRefsEntry
  simp [lookupA_updateAgency_ne _ _ hs]

theorem rollupAccum_frame (mk rdk : String) (parent : String) (k : RefKey)
    (crd : List (String × Nat)) (m : List (String × AgencyData)) (s : String)
    (hs : s ≠ parent) :
    lookupA s (rollupAccum mk rdk parent k crd m) = lookupA s m := by
  unfold rollupAccum
  split
  · rfl
  · simp [lookupA_updateAgency_ne _ _ hs]

theorem rollupCopy_frame (mk : String) (parent : String) (k : RefKey)
    (crd : List (String × Nat)) (m : List (String × AgencyData)) (s : String)
    (hs : s ≠ parent) :
    lookupA s (rollupCopy mk parent k crd m) = lookupA s m := by
  unfold rollupCopy
  split <;> simp [lookupA_updateAgency_ne _ _ hs]

theorem processRefKey_frame (mk : String) (rdkOpt : Option String) (parent child : String)
    (k : RefKey) (m : List (String × AgencyData)) (s : String) (hs : s ≠ parent) :
    lookupA s (processRefKey mk rdkOpt parent child k m) = lookupA s m := by
  unfold processRefKey
  repeat' split
  all_goals simp [rollupAccum_frame, rollupCopy_frame, ensureRefsEntry_frame, hs]

theorem isSome_ensureRefsEntry (parent : String) (k : RefKey)
    (m : List (String × AgencyData)) (s : String) :
    (lookupA s (ensureRefsEntry parent k m)).isSome = (lookupA s m).isSome := by
  unfold ensureRefsEntry
  simp [isSome_lookupA_updateAgency]

theorem isSome_rollupAccum (mk rdk : String) (parent : String) (k : RefKey)
    (crd : List (String × Nat)) (m : List (String × AgencyData)) (s : String) :
    (lookupA s (rollupAccum mk rdk parent k crd m)).isSome = (lookupA s m).isSome := by
  unfold rollupAccum
  split
  · rfl
  · simp [isSome_lookupA_updateAgency]

theorem isSome_rollupCopy (mk : String) (parent : String) (k : RefKey)
    (crd : List (String × Nat)) (m : List (String × AgencyData)) (s : String) :
    (lookupA s (rollupCopy mk parent k crd m)).isSome = (lookupA s m).isSome := by
  unfold rollupCopy
  split <;> simp [isSome_lookupA_updateAgency]

theorem isSome_processRefKey (mk : String) (rdkOpt : Option String) (parent child : String)
    (k : RefKey) (m : List (String × AgencyData)) (s : String) :
    (lookupA s (processRefKey mk rdkOpt parent child k m)).isSome =
      (lookupA s m).isSome := by
  unfold processRefKey
  repeat' split
  all_goals simp [isSome_rollupAccum, isSome_rollupCopy, isSome_ensureRefsEntry]

theorem lookupA_updateAgency_some {p : String} {m : List (String × AgencyData)}
    {d : AgencyData} (f : AgencyData → AgencyData) (hp : lookupA p m = some d) :
    lookupA p (updateAgency p f m) = some (f d) := by
  rw [lookupA_updateAgency_self, hp]
  rfl

theorem ensureRefsEntry_prefs (k : RefKey) {parent : String}
    {m : List (String × AgencyData)} {pd : AgencyData}
    (hp : lookupA parent m = some pd) :
    lookupA parent (ensureRefsEntry parent k m) =
      some { pd with refs := some (
        if (lookupA k (pd.refs.getD [])).isNone then setA k [] (pd.refs.getD [])
        else pd.refs.getD []) } := by
  unfold ensureRefsEntry
  have h1 := lookupA_updateAgency_some ensureRefsFun hp
  have h2 := lookupA_updateAgency_some (ensureEntryFun k) h1
  rw [h2]
  obtain ⟨mets, refs0⟩ := pd
  cases refs0 with
  | none => simp [ensureRefsFun, ensureEntryFun, lookupA]
  | some rs =>
    by_cases hc : (lookupA k rs).isNone <;>
      simp [ensureRefsFun, ensureEntryFun, hc]

theorem rollupAccum_prefs (mk : String) {rdk parent : String} {k : RefKey}
    {crd : List (String × Nat)} {m : List (String × AgencyData)}
    {pd : AgencyData} {rs : List (RefKey × List (String × Nat))}
    {e : List (String × Nat)} {v : Nat}
    (hp : lookupA parent m = some pd) (hrs : pd.refs = some rs)
    (hk : lookupA k rs = some e) (hv : lookupA rdk crd = some v) :
    ∃ pd', lookupA parent (rollupAccum mk rdk parent k crd m) = some pd' ∧
      pd'.refs = some (setA k (setA rdk ((lookupA rdk e).getD 0 + v) e) rs) := by
  unfold rollupAccum
  simp only [hv, Option.isNone_some, Bool.false_eq_true, if_false, Option.getD_some]
  have h3 := lookupA_updateAgency_some (ensureEntryFun k) hp
  have hf3 : ensureEntryFun k pd = pd := by
    simp [ensureEntryFun, hrs, hk]
  rw [hf3] at h3
  have h4 := lookupA_updateAgency_some (entryMetricZeroFun k rdk) h3
  cases he : lookupA rdk e with
  | none =>
    have hf4 : entryMetricZeroFun k rdk pd =
        { pd with refs := some (setA k (setA rdk 0 e) rs) } := by
      simp [entryMetricZeroFun, hrs, hk, he]
    rw [hf4] at h4
    have h5 := lookupA_updateAgency_some (entryMetricAddFun k rdk v) h4
    have hf5 : entryMetricAddFun k rdk v
        { pd with refs := some (setA k (setA rdk 0 e) rs) } =
        { pd with refs := some (setA k (setA rdk (0 + v) e) rs) } := by
      simp [entryMetricAddFun, lookupA_setA_self, setA_setA]
    rw [hf5] at h5
    have h6 := lookupA_updateAgency_some (metricZeroFun mk) h5
    have h7 := lookupA_updateAgency_some (metricAddFun mk v) h6
    refine ⟨_, h7, ?_⟩
    by_cases hmz : (lookupA mk pd.metrics).isNone <;>
      simp [metricAddFun, metricZeroFun, he, hmz]
  | some w =>
    have hf4 : entryMetricZeroFun k rdk pd = pd := by
      simp [entryMetricZeroFun, hrs, hk, he]
    rw [hf4] at h4
    have h5 := lookupA_updateAgency_some (entryMetricAddFun k rdk v) h4
    have hf5 : entryMetricAddFun k rdk v pd =
        { pd with refs := some (setA k (setA rdk (w + v) e) rs) } := by
      simp [entryMetricAddFun, hrs, hk, he]
    rw [hf5] at h5
    have h6 := lookupA_updateAgency_some (metricZeroFun mk) h5
    have h7 := lookupA_updateAgency_some (metricAddFun mk v) h6
    refine ⟨_, h7, ?_⟩
    by_cases hmz : (lookupA mk pd.metrics).isNone <;>
      simp [metricAddFun, metricZeroFun, he, hmz]

/-- Equivalence of two reference dicts at a single key: same binding and same
key multiplicity. -/
def REq (R : RefKey) (rs rs' : List (RefKey × List (String × Nat))) : Prop :=
  lookupA R rs' = lookupA R rs ∧
    (rs'.map Prod.fst).count R = (rs.map Prod.fst).count R

theorem REq.refl {R : RefKey} {rs : List (RefKey × List (String × Nat))} : REq R rs rs :=
  ⟨Eq.refl _, Eq.refl _⟩

theorem REq.trans {R : RefKey} {r1 r2 r3 : List (RefKey × List (String × Nat))}
    (h1 : REq R r1 r2) (h2 : REq R r2 r3) : REq R r1 r3 :=
  ⟨h2.1.trans h1.1, h2.2.trans h1.2⟩

theorem REq_setA {R k : RefKey} (hk : k ≠ R) (v : List (String × Nat))
    (rs : List (RefKey × List (String × Nat))) : REq R rs (setA k v rs) :=
  ⟨lookupA_setA_ne _ _ _ _ hk, count_keys_setA_ne _ _ _ _ hk⟩

/-- A data transformer preserves the parent's references at key `R`. -/
def PreservesR (R : RefKey) (f : AgencyData → AgencyData) : Prop :=
  ∀ d, REq R (d.refs.getD []) ((f d).refs.getD [])

theorem preservesR_updateAgency {R : RefKey} {f : AgencyData → AgencyData}
    (hf : PreservesR R f) (s p : String) (m : List (String × AgencyData)) :
    REq R (prefs p m) (prefs p (updateAgency s f m)) := by
  by_cases hsp : p = s
  · subst hsp
    unfold prefs
    rw [lookupA_updateAgency_self]
    cases hm : lookupA p m with
    | none => exact REq.refl
    | some d => exact hf d
  · rw [prefs_updateAgency_ne _ _ hsp]
    exact REq.refl

theorem preservesR_ensureRefsFun {R : RefKey} : PreservesR R ensureRefsFun := by
  intro d
  cases hd : d.refs <;> simp [ensureRefsFun, hd, REq.refl]

theorem preservesR_ensureEntryFun {R k : RefKey} (hk : k ≠ R) :
    PreservesR R (ensureEntryFun k) := by
  intro d
  cases hd : d.refs with
  | none => simp [ensureEntryFun, hd, REq.refl]
  | some rs =>
    by_cases hc : (lookupA k rs).isNone <;>
      simp [ensureEntryFun, hd, hc, REq.refl, REq_setA hk]

theorem preservesR_entryMetricZeroFun {R k : RefKey} {rdk : String} (hk : k ≠ R) :
    PreservesR R (entryMetricZeroFun k rdk) := by
  intro d
  cases hd : d.refs with
  | none => simp [entryMetricZeroFun, hd, REq.refl]
  | some rs =>
    cases he : lookupA k rs with
    | none => simp [entryMetricZeroFun, hd, he, REq.refl]
    | some e =>
      by_cases hc : (lookupA rdk e).isNone <;>
        simp [entryMetricZeroFun, hd, he, hc, REq.refl, REq_setA hk]

theorem preservesR_entryMetricAddFun {R k : RefKey} {rdk : String} {v : Nat} (hk : k ≠ R) :
    PreservesR R (entryMetricAddFun k rdk v) := by
  intro d
  cases hd : d.refs with
  | none => simp [entryMetricAddFun, hd, REq.refl]
  | some rs =>
    cases he : lookupA k rs with
    | none => simp [entryMetricAddFun, hd, he, REq.refl]
    | some e => simp [entryMetricAddFun, hd, he, REq_setA hk]

theorem preservesR_metricZeroFun {R : RefKey} {mk : String} :
    PreservesR R (metricZeroFun mk) := by
  intro d
  by_cases hc : (lookupA mk d.metrics).isNone <;> simp [metricZeroFun, hc, REq.refl]

theorem preservesR_metricAddFun {R : RefKey} {mk : String} {v : Nat} :
    PreservesR R (metricAddFun mk v) := by
  intro d
  simp [metricAddFun, REq.refl]

theorem preservesR_copyEntryFun {R k : RefKey} {crd : List (String × Nat)} (hk : k ≠ R) :
    PreservesR R (copyEntryFun k crd) := by
  intro d
  cases hd : d.refs with
  | none => simp [copyEntryFun, hd, REq.refl]
  | some rs => simp [copyEntryFun, hd, REq_setA hk]

theorem preservesR_copyMetricFun {R : RefKey} {mk : String} {mv : Nat} :
    PreservesR R (copyMetricFun mk mv) := by
  intro d
  cases hc : lookupA mk d.metrics <;> simp [copyMetricFun, hc, REq.refl]

theorem REq_prefs_ensureRefsEntry {R k : RefKey} (hk : k ≠ R) (parent p : String)
    (m : List (String × AgencyData)) :
    REq R (prefs p m) (prefs p (ensureRefsEntry parent k m)) := by
  unfold ensureRefsEntry
  exact (preservesR_updateAgency preservesR_ensureRefsFun parent p m).trans
    (preservesR_updateAgency (preservesR_ensureEntryFun hk) parent p _)

theorem REq_prefs_rollupAccum {R k : RefKey} (hk : k ≠ R) (mk rdk parent p : String)
    (crd : List (String × Nat)) (m : List (String × AgencyData)) :
    REq R (prefs p m) (prefs p (rollupAccum mk rdk parent k crd m)) := by
  unfold rollupAccum
  split
  · exact REq.refl
  · exact ((((preservesR_updateAgency (preservesR_ensureEntryFun hk) parent p m).trans
      (preservesR_updateAgency (preservesR_entryMetricZeroFun hk) parent p _)).trans
      (preservesR_updateAgency (preservesR_entryMetricAddFun hk) parent p _)).trans
      (preservesR_updateAgency preservesR_metricZeroFun parent p _)).trans
      (preservesR_updateAgency preservesR_metricAddFun parent p _)

theorem REq_prefs_rollupCopy {R k : RefKey} (hk : k ≠ R) (mk parent p : String)
    (crd : List (String × Nat)) (m : List (String × AgencyData)) :
    REq R (prefs p m) (prefs p (rollupCopy mk parent k crd m)) := by
  unfold rollupCopy
  split
  · exact preservesR_updateAgency (preservesR_copyEntryFun hk) parent p m
  · exact (preservesR_updateAgency (preservesR_copyEntryFun hk) parent p m).trans
      (preservesR_updateAgency preservesR_copyMetricFun parent p _)

theorem REq_prefs_processRefKey {R k : RefKey} (hk : k ≠ R)
    (mk : String) (rdkOpt : Option String) (parent child p : String)
    (m : List (String × AgencyData)) :
    REq R (prefs p m) (prefs p (processRefKey mk rdkOpt parent child k m)) := by
  unfold processRefKey
  repeat' split
  all_goals first
    | exact REq.refl
    | exact (REq_prefs_ensureRefsEntry hk parent p m).trans
        (REq_prefs_rollupAccum hk mk _ parent p _ _)
    | exact (REq_prefs_ensureRefsEntry hk parent p m).trans
        (REq_prefs_rollupCopy hk mk parent p _ _)

/-- A data transformer only ever extends the set of reference keys. -/
def KeysMono (f : AgencyData → AgencyData) : Prop :=
  ∀ d r, r ∈ (d.refs.getD []).map Prod.fst → r ∈ ((f d).refs.getD []).map Prod.fst

theorem keysMono_updateAgency {f : AgencyData → AgencyData} (hf : KeysMono f)
    (s p : String) (m : List (String × AgencyData)) (r : RefKey)
    (h : r ∈ (prefs p m).map Prod.fst) :
    r ∈ (prefs p (updateAgency s f m)).map Prod.fst := by
  by_cases hsp : p = s
  · subst hsp
    unfold prefs at h ⊢
    rw [lookupA_updateAgency_self]
    cases hm : lookupA p m with
    | none => rw [hm] at h; exact h
    | some d =>
      rw [hm] at h
      exact hf d r h
  · rwa [prefs_updateAgency_ne _ _ hsp]

theorem keysMono_ensureRefsFun : KeysMono ensureRefsFun := by
  intro d r h
  cases hd : d.refs <;> simp [ensureRefsFun, hd] <;> simp [hd] at h <;> exact h

theorem keysMono_ensureEntryFun {k : RefKey} : KeysMono (ensureEntryFun k) := by
  intro d r h
  cases hd : d.refs with
  | none => simpa [ensureEntryFun, hd] using h
  | some rs =>
    simp only [hd, Option.getD_some] at h
    cases hc : (lookupA k rs).isNone with
    | true =>
      simp only [ensureEntryFun, hd, hc, if_true, Option.getD_some]
      exact (keys_setA_mem_iff k r [] rs).mpr (Or.inr h)
    | false =>
      simpa only [ensureEntryFun, hd, hc, Bool.false_eq_true, if_false,
        Option.getD_some] using h

theorem keysMono_entryMetricZeroFun {k : RefKey} {rdk : String} :
    KeysMono (entryMetricZeroFun k rdk) := by
  intro d r h
  cases hd : d.refs with
  | none => simpa [entryMetricZeroFun, hd] using h
  | some rs =>
    simp only [hd, Option.getD_some] at h
    cases he : lookupA k rs with
    | none => simpa [entryMetricZeroFun, hd, he] using h
    | some e =>
      cases hc : (lookupA rdk e).isNone with
      | true =>
        simp only [entryMetricZeroFun, hd, he, hc, if_true, Option.getD_some]
        exact (keys_setA_mem_iff k r _ rs).mpr (Or.inr h)
      | false =>
        simpa only [entryMetricZeroFun, hd, he, hc, Bool.false_eq_true, if_false,
          Option.getD_some] using h

theorem keysMono_entryMetricAddFun {k : RefKey} {rdk : String} {v : Nat} :
    KeysMono (entryMetricAddFun k rdk v) := by
  intro d r h
  cases hd : d.refs with
  | none => simpa [entryMetricAddFun, hd] using h
  | some rs =>
    simp only [hd, Option.getD_some] at h
    cases he : lookupA k rs with
    | none => simpa [entryMetricAddFun, hd, he] using h
    | some e =>
      simp only [entryMetricAddFun, hd, he, Option.getD_some]
      exact (keys_setA_mem_iff k r _ rs).mpr (Or.inr h)

theorem keysMono_metricZeroFun {mk : String} : KeysMono (metricZeroFun mk) := by
  intro d r h
  by_cases hc : (lookupA mk d.metrics).isNone <;> simpa [metricZeroFun, hc] using h

theorem keysMono_metricAddFun {mk : String} {v : Nat} : KeysMono (metricAddFun mk v) := by
  intro d r h
  simpa [metricAddFun] using h

theorem keysMono_copyEntryFun {k : RefKey} {crd : List (String × Nat)} :
    KeysMono (copyEntryFun k crd) := by
  intro d r h
  cases hd : d.refs with
  | none => simpa [copyEntryFun, hd] using h
  | some rs =>
    simp only [hd, Option.getD_some] at h
    simp only [copyEntryFun, hd, Option.getD_some]
    exact (keys_setA_mem_iff k r _ rs).mpr (Or.inr h)

theorem keysMono_copyMetricFun {mk : String} {mv : Nat} : KeysMono (copyMetricFun mk mv) := by
  intro d r h
  cases hc : lookupA mk d.metrics <;> simpa [copyMetricFun, hc] using h

theorem keys_mono_ensureRefsEntry (parent : String) (k : RefKey)
    (m : List (String × AgencyData)) (p : String) (r : RefKey)
    (h : r ∈ (prefs p m).map Prod.fst) :
    r ∈ (prefs p (ensureRefsEntry parent k m)).map Prod.fst := by
  unfold ensureRefsEntry
  exact keysMono_updateAgency keysMono_ensureEntryFun parent p _ r
    (keysMono_updateAgency keysMono_ensureRefsFun parent p m r h)

theorem keys_mono_rollupAccum (mk rdk parent : String) (k : RefKey)
    (crd : List (String × Nat)) (m : List (String × AgencyData)) (p : String) (r : RefKey)
    (h : r ∈ (prefs p m).map Prod.fst) :
    r ∈ (prefs p (rollupAccum mk rdk parent k crd m)).map Prod.fst := by
  unfold rollupAccum
  split
  · exact h
  · exact keysMono_updateAgency keysMono_metricAddFun parent p _ r
      (keysMono_updateAgency keysMono_metricZeroFun parent p _ r
        (keysMono_updateAgency keysMono_entryMetricAddFun parent p _ r
          (keysMono_updateAgency keysMono_entryMetricZeroFun parent p _ r
            (keysMono_updateAgency keysMono_ensureEntryFun parent p m r h))))

theorem keys_mono_rollupCopy (mk parent : String) (k : RefKey)
    (crd : List (String × Nat)) (m : List (String × AgencyData)) (p : String) (r : RefKey)
    (h : r ∈ (prefs p m).map Prod.fst) :
    r ∈ (prefs p (rollupCopy mk parent k crd m)).map Prod.fst := by
  unfold rollupCopy
  split
  · exact keysMono_updateAgency keysMono_copyEntryFun parent p m r h
  · exact keysMono_updateAgency keysMono_copyMetricFun parent p _ r
      (keysMono_updateAgency keysMono_copyEntryFun parent p m r h)

theorem keys_mono_processRefKey (mk : String) (rdkOpt : Option String)
    (parent child : String) (k : RefKey) (m : List (String × AgencyData))
    (p : String) (r : RefKey) (h : r ∈ (prefs p m).map Prod.fst) :
    r ∈ (prefs p (processRefKey mk rdkOpt parent child k m)).map Prod.fst := by
  unfold processRefKey
  repeat' split
  all_goals first
    | exact h
    | exact keys_mono_rollupAccum mk _ parent k _ _ p r
        (keys_mono_ensureRefsEntry parent k m p r h)
    | exact keys_mono_rollupCopy mk parent k _ _ p r
        (keys_mono_ensureRefsEntry parent k m p r h)

theorem processRefKey_ensures {mk : String} {rdkOpt : Option String}
    {parent child : String} {k : RefKey} {m : List (String × AgencyData)}
    {cd : AgencyData} {crefs : List (RefKey × List (String × Nat))}
    (hpar : (lookupA parent m).isSome)
    (hcd : lookupA child m = some cd) (hcr : cd.refs = some crefs)
    (hk : (lookupA k crefs).isSome) :
    k ∈ (prefs parent (processRefKey mk rdkOpt parent child k m)).map Prod.fst := by
  obtain ⟨pd, hpd⟩ := Option.isSome_iff_exists.mp hpar
  have hm2 : k ∈ (prefs parent (ensureRefsEntry parent k m)).map Prod.fst := by
    unfold prefs
    rw [ensureRefsEntry_prefs k hpd]
    simp only [Option.getD_some]
    cases hc : (lookupA k (pd.refs.getD [])).isNone with
    | true =>
      simp only [hc, if_true]
      exact (keys_setA_mem_iff k k [] _).mpr (Or.inl (Eq.refl k))
    | false =>
      simp only [hc, Bool.false_eq_true, if_false]
      rw [← lookupA_isSome_iff]
      cases hx : lookupA k (pd.refs.getD []) with
      | none => rw [hx] at hc; simp at hc
      | some _ => simp
  have hnone : (lookupA k crefs).isNone = false := by
    simp only [Option.isNone_eq_false_iff]
    exact hk
  unfold processRefKey
  simp only [hcd, hcr, hnone, Bool.false_eq_true, if_false]
  cases rdkOpt with
  | some rdk => exact keys_mono_rollupAccum mk rdk parent k _ _ parent k hm2
  | none => exact keys_mono_rollupCopy mk parent k _ _ parent k hm2

theorem processRefKey_action (mk : String) {rdk : String} {parent child : String} {R : RefKey}
    {m : List (String × AgencyData)} {cd : AgencyData}
    {crefs : List (RefKey × List (String × Nat))} {e1 : List (String × Nat)} {v : Nat}
    (hpc : parent ≠ child)
    (hpar : (lookupA parent m).isSome)
    (hRnone : lookupA R (prefs parent m) = none)
    (hcd : lookupA child m = some cd) (hcr : cd.refs = some crefs)
    (hRC : lookupA R crefs = some e1) (hv : lookupA rdk e1 = some v) :
    ∃ eR, lookupA R (prefs parent (processRefKey mk (some rdk) parent child R m)) =
        some eR ∧ lookupA rdk eR = some v ∧
      ((prefs parent (processRefKey mk (some rdk) parent child R m)).map Prod.fst).count R
        = 1 := by
  obtain ⟨pd, hpd⟩ := Option.isSome_iff_exists.mp hpar
  have hrs0 : prefs parent m = pd.refs.getD [] := by
    unfold prefs
    rw [hpd]
  rw [hrs0] at hRnone
  -- the state after `ensureRefsEntry`: the parent entry at R exists and is empty
  have hm2 := ensureRefsEntry_prefs R hpd
  rw [hRnone] at hm2
  simp only [Option.isNone_none, if_true] at hm2
  -- the child's reference data read from the ensured state
  have hchild2 : lookupA child (ensureRefsEntry parent R m) = some cd := by
    rw [ensureRefsEntry_frame parent R m child (Ne.symm hpc)]
    exact hcd
  have hnone : (lookupA R crefs).isNone = false := by
    simp [hRC]
  -- reduce processRefKey to the rollupAccum call
  unfold processRefKey
  simp only [hcd, hcr, hnone, Option.isNone_some, Bool.false_eq_true, if_false,
    hchild2, hRC, Option.getD_some]
  -- apply the accumulation lemma at the ensured state
  have hacc := rollupAccum_prefs mk
    hm2 (Eq.refl _) (lookupA_setA_self R [] (pd.refs.getD [])) hv
  obtain ⟨pd', hpd', hrefs'⟩ := hacc
  refine ⟨setA rdk ((lookupA rdk ([] : List (String × Nat))).getD 0 + v) [], ?_, ?_, ?_⟩
  · unfold prefs
    rw [hpd']
    simp [hrefs', setA_setA, lookupA_setA_self]
  · simp [lookupA, setA]
  · unfold prefs
    rw [hpd']
    simp only [hrefs', Option.getD_some, setA_setA]
    have hnotmem : R ∉ (pd.refs.getD []).map Prod.fst :=
      (lookupA_eq_none_iff R _).mp hRnone
    rw [keys_setA_notMem _ _ _ hnotmem]
    rw [List.count_append]
    rw [List.count_eq_zero_of_not_mem hnotmem]
    simp

/-- Stepwise preservation of the parent's entry at `R` over a fold of
`processRefKey` at keys other than `R`. -/
theorem REq_prefs_fold {R : RefKey} (mk : String) (rdkOpt : Option String)
    (parent child p : String) :
    ∀ (keys : List RefKey) (m : List (String × AgencyData)), R ∉ keys →
      REq R (prefs p m) (prefs p (keys.foldl
        (fun mm k => processRefKey mk rdkOpt parent child k mm) m))
  | [], m, _ => REq.refl
  | k0 :: rest, m, h => by
    have hk0 : k0 ≠ R := fun he => h (he ▸ List.mem_cons_self k0 rest)
    have hrest : R ∉ rest := fun hr => h (List.mem_cons_of_mem k0 hr)
    exact (REq_prefs_processRefKey hk0 mk rdkOpt parent child p m).trans
      (REq_prefs_fold mk rdkOpt parent child p rest _ hrest)

theorem lookupA_recomputeTotals (mk : String) (rdkOpt : Option String) (s : String)
    (m : List (String × AgencyData)) :
    lookupA s (recomputeTotals mk rdkOpt m) = (lookupA s m).map (fun d =>
      match d.refs with
      | none => d
      | some rs =>
        { d with metrics := setA mk (refSumWith (rdkOpt.getD mk) rs) d.metrics }) := by
  induction m with
  | nil => simp [recomputeTotals, lookupA]
  | cons p rest ih =>
    obtain ⟨s0, d0⟩ := p
    by_cases h : s0 = s
    · subst h
      cases hd : d0.refs <;> simp [recomputeTotals, lookupA, hd]
    · cases hd : d0.refs <;>
        simpa [recomputeTotals, lookupA, h, hd] using ih

theorem isSome_fold_processRefKey (mk : String) (rdkOpt : Option String)
    (parent child : String) :
    ∀ (keys : List RefKey) (m : List (String × AgencyData)) (s : String),
      (lookupA s m).isSome →
      (lookupA s (keys.foldl
        (fun mm k => processRefKey mk rdkOpt parent child k mm) m)).isSome
  | [], _, _, h => h
  | k0 :: rest, m, s, h => by
    refine isSome_fold_processRefKey mk rdkOpt parent child rest _ s ?_
    rw [isSome_processRefKey]
    exact h

theorem lookupA_fold_processRefKey_frame (mk : String) (rdkOpt : Option String)
    (parent child : String) :
    ∀ (keys : List RefKey) (m : List (String × AgencyData)) (s : String), s ≠ parent →
      lookupA s (keys.foldl (fun mm k => processRefKey mk rdkOpt parent child k mm) m) =
        lookupA s m
  | [], _, _, _ => rfl
  | k0 :: rest, m, s, hs => by
    rw [List.foldl_cons,
      lookupA_fold_processRefKey_frame mk rdkOpt parent child rest _ s hs,
      processRefKey_frame mk rdkOpt parent child k0 m s hs]

theorem fold_action (mk : String) {R : RefKey} {rdk : String} {parent child : String}
    {cd : AgencyData} {crefs : List (RefKey × List (String × Nat))}
    {e1 : List (String × Nat)} {v : Nat} (hpc : parent ≠ child) :
    ∀ (keys : List RefKey) (m : List (String × AgencyData)),
      keys.Nodup → R ∈ keys →
      (lookupA parent m).isSome →
      lookupA R (prefs parent m) = none →
      lookupA child m = some cd → cd.refs = some crefs →
      lookupA R crefs = some e1 → lookupA rdk e1 = some v →
      ∃ eR, lookupA R (prefs parent (keys.foldl
            (fun mm k => processRefKey mk (some rdk) parent child k mm) m)) = some eR ∧
        lookupA rdk eR = some v ∧
        ((prefs parent (keys.foldl
            (fun mm k => processRefKey mk (some rdk) parent child k mm) m)).map
          Prod.fst).count R = 1 := by
  intro keys
  induction keys with
  | nil => intro m _ hmem; simp at hmem
  | cons k0 rest ih =>
    intro m hnd hmem hpar hRnone hcd hcr hRC hv
    by_cases hk0 : k0 = R
    · subst hk0
      obtain ⟨eR, heR, hrdk, hcount⟩ :=
        processRefKey_action mk hpc hpar hRnone hcd hcr hRC hv
      have hrest : k0 ∉ rest := by
        have := hnd
        rw [List.nodup_cons] at this
        exact this.1
      have hpres := REq_prefs_fold mk (some rdk) parent child parent rest
        (processRefKey mk (some rdk) parent child k0 m) hrest
      rw [List.foldl_cons]
      exact ⟨eR, hpres.1.trans heR, hrdk, hpres.2.trans hcount⟩
    · have hk0R : k0 ≠ R := hk0
      have hstep := REq_prefs_processRefKey hk0R mk (some rdk) parent child parent m
      rw [List.foldl_cons]
      refine ih (processRefKey mk (some rdk) parent child k0 m)
        (List.Nodup.of_cons hnd) ?_ ?_ ?_ ?_ hcr hRC hv
      · rcases List.mem_cons.mp hmem with h | h
        · exact absurd h (fun he => hk0 he.symm)
        · exact h
      · rw [isSome_processRefKey]
        exact hpar
      · rw [hstep.1]
        exact hRnone
      · rw [processRefKey_frame mk (some rdk) parent child k0 m child (Ne.symm hpc)]
        exact hcd

/-- CLAIM C3.  After `_roll_up_agency_totals`, every agency in the output
that carries a references map — leaves included — has its `metric_key` total
equal to the sum of the `ref_data_key` values over its (possibly extended)
references map: totals are recomputed from the reference-level detail.  The
concrete conjunct shows a leaf with a stale cached total of 99 recomputed to
the reference sum 12. -/
theorem rollup_totals_recomputed :
    (∀ (hierarchy : List (String × String)) (m : List (String × AgencyData))
        (mk rdk : String) (s : String) (d : AgencyData)
        (rs : List (RefKey × List (String × Nat))),
        lookupA s (rollUpAgencyTotals hierarchy m mk (some rdk)) = some d →
        d.refs = some rs →
        lookupA mk d.metrics = some (refSumWith rdk rs)) ∧
    lookupA "x" (rollUpAgencyTotals []
        [("x", ⟨[("total", 99)],
          some [(⟨1, "", "", "", "5"⟩, [("count", 5)]),
                (⟨2, "", "", "", "7"⟩, [("count", 7)])]⟩)] "total" (some "count")) =
      some ⟨[("total", 12)],
        some [(⟨1, "", "", "", "5"⟩, [("count", 5)]),
              (⟨2, "", "", "", "7"⟩, [("count", 7)])]⟩ := by
  refine ⟨?_, by decide⟩
  intro hierarchy m mk rdk s d rs hd hrs
  unfold rollUpAgencyTotals at hd
  rw [lookupA_recomputeTotals] at hd
  cases hm : lookupA s ((parentToChildren hierarchy).foldl
      (processParent mk (some rdk) (refKeysSnapshot m)) m) with
  | none => rw [hm] at hd; simp at hd
  | some d0 =>
    rw [hm] at hd
    simp only [Option.map_some'] at hd
    cases hd0 : d0.refs with
    | none =>
      rw [hd0] at hd
      injection hd with hd
      subst hd
      rw [hd0] at hrs
      cases hrs
    | some rs0 =>
      rw [hd0] at hd
      injection hd with hd
      subst hd
      simp only [hd0, Option.getD_some] at hrs
      injection hrs with hrs
      subst hrs
      simp [lookupA_setA_self]

theorem processChild_eq (mk : String) (rdkOpt : Option String)
    (snapshot : List (String × List RefKey)) (parent child : String)
    (m : List (String × AgencyData)) (counted : List RefKey)
    (hc : (lookupA child m).isSome) :
    processChild mk rdkOpt snapshot parent (m, counted) child =
      ((((lookupA child snapshot).getD []).filter (fun k => k ∉ counted)).foldl
        (fun mm k => processRefKey mk rdkOpt parent child k mm) m,
       counted ++ ((lookupA child snapshot).getD []).filter (fun k => k ∉ counted)) := by
  unfold processChild
  have hcF : (lookupA child m).isNone = false := by
    simp only [Option.isNone_eq_false_iff]
    exact hc
  simp [hcF]

/-- CLAIM C2.  For a parent with two children both carrying the same
reference key with the same metric value (the parent not carrying it), the
rolled-up parent holds the key exactly once with that value — not twice the
value — and its total is the sum over its references, so the value enters the
total exactly once; the first child contributes the key and the second is
blocked by the counted set.  The concrete conjunct instantiates v = 5. -/
theorem rollup_non_double_counting :
    (∀ (p c1 c2 mk rdk : String) (R : RefKey) (v : Nat)
        (m : List (String × AgencyData)) (d1 d2 : AgencyData)
        (rs1 rs2 : List (RefKey × List (String × Nat))) (e1 e2 : List (String × Nat)),
        p ≠ c1 → p ≠ c2 →
        (lookupA p m).isSome → lookupA R (prefs p m) = none →
        lookupA c1 m = some d1 → d1.refs = some rs1 →
        lookupA R rs1 = some e1 → lookupA rdk e1 = some v →
        lookupA c2 m = some d2 → d2.refs = some rs2 →
        lookupA R rs2 = some e2 → lookupA rdk e2 = some v →
        ∃ dp' rs',
          lookupA p (rollUpAgencyTotals [(c1, p), (c2, p)] m mk (some rdk)) = some dp' ∧
          dp'.refs = some rs' ∧
          (∃ eR, lookupA R rs' = some eR ∧ lookupA rdk eR = some v) ∧
          (rs'.map Prod.fst).count R = 1 ∧
          lookupA mk dp'.metrics = some (refSumWith rdk rs')) ∧
    lookupA "p" (rollUpAgencyTotals [("c1", "p"), ("c2", "p")]
        [("p", ⟨[("total", 0)], some []⟩),
         ("c1", ⟨[("total", 5)], some [(⟨40, "", "", "", "50"⟩, [("count", 5)])]⟩),
         ("c2", ⟨[("total", 5)], some [(⟨40, "", "", "", "50"⟩, [("count", 5)])]⟩)]
        "total" (some "count")) =
      some ⟨[("total", 5)], some [(⟨40, "", "", "", "50"⟩, [("count", 5)])]⟩ := by
  refine ⟨?_, by decide⟩
  intro p c1 c2 mk rdk R v m d1 d2 rs1 rs2 e1 e2 hpc1 hpc2 hpar hRnone
    hcd1 hrs1 hRC1 hv1 hcd2 hrs2 hRC2 hv2
  have hp2c : parentToChildren [(c1, p), (c2, p)] = [(p, [c1, c2])] := by
    simp [parentToChildren, addChild, lookupA, setA]
  unfold rollUpAgencyTotals
  rw [hp2c]
  simp only [List.foldl_cons, List.foldl_nil]
  -- the single parent iteration
  unfold processParent
  have hparF : (lookupA p m).isNone = false := by
    simp only [Option.isNone_eq_false_iff]
    exact hpar
  simp only [hparF, Bool.false_eq_true, if_false]
  -- snapshot of the two children
  have hsnap1 : (lookupA c1 (refKeysSnapshot m)).getD [] = (rs1.map Prod.fst).dedup := by
    rw [lookupA_refKeysSnapshot, hcd1]
    simp [hrs1]
  have hsnap2 : (lookupA c2 (refKeysSnapshot m)).getD [] = (rs2.map Prod.fst).dedup := by
    rw [lookupA_refKeysSnapshot, hcd2]
    simp [hrs2]
  -- the parent's own counted set does not contain R
  have hcounted0 : R ∉ (lookupA p (refKeysSnapshot m)).getD [] := by
    obtain ⟨dp, hdp⟩ := Option.isSome_iff_exists.mp hpar
    rw [lookupA_refKeysSnapshot, hdp]
    have hR : R ∉ (dp.refs.getD []).map Prod.fst := by
      apply (lookupA_eq_none_iff R _).mp
      unfold prefs at hRnone
      rw [hdp] at hRnone
      exact hRnone
    simp only [Option.map_some', Option.getD_some]
    cases hrefs : dp.refs with
    | none => simp [hrefs]
    | some rs0 =>
      simp only [hrefs, List.mem_dedup]
      rw [hrefs, Option.getD_some] at hR
      exact hR
  simp only [List.foldl_cons, List.foldl_nil]
  -- the two child iterations, by the characterization of processChild
  have hc1s : (lookupA c1 m).isSome := by simp [hcd1]
  have hstep1 := processChild_eq mk (some rdk) (refKeysSnapshot m) p c1 m
    ((lookupA p (refKeysSnapshot m)).getD []) hc1s
  -- R is among c1's new references, exactly once
  have hRnew1 : R ∈ ((lookupA c1 (refKeysSnapshot m)).getD []).filter
      (fun k => k ∉ (lookupA p (refKeysSnapshot m)).getD []) := by
    rw [hsnap1]
    refine List.mem_filter.mpr ⟨?_, ?_⟩
    · rw [List.mem_dedup, ← lookupA_isSome_iff, hRC1]
      rfl
    · simpa using hcounted0
  have hnd1 : (((lookupA c1 (refKeysSnapshot m)).getD []).filter
      (fun k => k ∉ (lookupA p (refKeysSnapshot m)).getD [])).Nodup := by
    rw [hsnap1]
    exact List.Nodup.filter _ (List.nodup_dedup _)
  obtain ⟨eR, heR, hrdkR, hcountR⟩ := fold_action mk hpc1
    (((lookupA c1 (refKeysSnapshot m)).getD []).filter
      (fun k => k ∉ (lookupA p (refKeysSnapshot m)).getD []))
    m hnd1 hRnew1 hpar hRnone hcd1 hrs1 hRC1 hv1
  -- the state after c1
  set m1 := (((lookupA c1 (refKeysSnapshot m)).getD []).filter
      (fun k => k ∉ (lookupA p (refKeysSnapshot m)).getD [])).foldl
    (fun mm k => processRefKey mk (some rdk) p c1 k mm) m with hm1def
  have hc2m1 : (lookupA c2 m1).isSome := by
    rw [hm1def]
    exact isSome_fold_processRefKey mk (some rdk) p c1 _ m c2 (by simp [hcd2])
  have hstep2 := processChild_eq mk (some rdk) (refKeysSnapshot m) p c2 m1
    ((lookupA p (refKeysSnapshot m)).getD [] ++
      ((lookupA c1 (refKeysSnapshot m)).getD []).filter
        (fun k => k ∉ (lookupA p (refKeysSnapshot m)).getD [])) hc2m1
  rw [hstep1, hstep2]
  -- R is already counted, so c2 leaves the parent's entry at R unchanged
  have hRnot2 : R ∉ ((lookupA c2 (refKeysSnapshot m)).getD []).filter
      (fun k => k ∉ ((lookupA p (refKeysSnapshot m)).getD [] ++
        ((lookupA c1 (refKeysSnapshot m)).getD []).filter
          (fun k => k ∉ (lookupA p (refKeysSnapshot m)).getD []))) := by
    intro hmem
    have hcond := (List.mem_filter.mp hmem).2
    simp at hcond
    have hRc1 := (List.mem_filter.mp hRnew1).1
    rcases hcond.2 with h | h
    · exact h hRc1
    · exact hcounted0 h
  have hpres := REq_prefs_fold mk (some rdk) p c2 p
    (((lookupA c2 (refKeysSnapshot m)).getD []).filter
      (fun k => k ∉ ((lookupA p (refKeysSnapshot m)).getD [] ++
        ((lookupA c1 (refKeysSnapshot m)).getD []).filter
          (fun k => k ∉ (lookupA p (refKeysSnapshot m)).getD []))))
    m1 hRnot2
  set m2 := (((lookupA c2 (refKeysSnapshot m)).getD []).filter
      (fun k => k ∉ ((lookupA p (refKeysSnapshot m)).getD [] ++
        ((lookupA c1 (refKeysSnapshot m)).getD []).filter
          (fun k => k ∉ (lookupA p (refKeysSnapshot m)).getD [])))).foldl
    (fun mm k => processRefKey mk (some rdk) p c2 k mm) m1 with hm2def
  -- the parent's data in the final pre-recompute state
  have hpm2 : (lookupA p m2).isSome := by
    rw [hm2def, hm1def]
    exact isSome_fold_processRefKey mk (some rdk) p c2 _ _ p
      (isSome_fold_processRefKey mk (some rdk) p c1 _ m p hpar)
  obtain ⟨dp2, hdp2⟩ := Option.isSome_iff_exists.mp hpm2
  have hprefs2 : lookupA R (prefs p m2) = some eR := by
    rw [hm2def]
    exact hpres.1.trans heR
  have hcount2 : ((prefs p m2).map Prod.fst).count R = 1 := by
    rw [hm2def]
    exact hpres.2.trans hcountR
  cases hrefs2 : dp2.refs with
  | none =>
    have hempty : prefs p m2 = [] := by
      simp [prefs, hdp2, hrefs2]
    rw [hempty] at hprefs2
    simp [lookupA] at hprefs2
  | some rs' =>
    have hprefseq : prefs p m2 = rs' := by
      simp [prefs, hdp2, hrefs2]
    refine ⟨{ dp2 with metrics := (
        setA mk (refSumWith ((some rdk).getD mk) rs') dp2.metrics) }, rs',
        ?_, ?_, ?_, ?_, ?_⟩
    · rw [lookupA_recomputeTotals, hdp2]
      simp only [Option.map_some', hrefs2]
    · simp [hrefs2]
    · exact ⟨eR, hprefseq ▸ hprefs2, hrdkR⟩
    · rw [← hprefseq]
      exact hcount2
    · simp [lookupA_setA_self]

theorem lookupA_append {α β : Type} [DecidableEq α] (k : α) (l1 l2 : List (α × β)) :
    lookupA k (l1 ++ l2) =
      match lookupA k l1 with
      | some v => some v
      | none => lookupA k l2 := by
  induction l1 with
  | nil => simp [lookupA]
  | cons p rest ih =>
    obtain ⟨k', v'⟩ := p
    by_cases h : k' = k <;> simp [lookupA, h, ih]

theorem parentToChildren_lookup {c p : String} :
    ∀ (hierarchy : List (String × String)) (acc : List (String × List String)),
      ((∃ cs, lookupA p acc = some cs ∧ c ∈ cs) ∨ (c, p) ∈ hierarchy) →
      ∃ cs, lookupA p (hierarchy.foldl (fun a cp => addChild cp.2 cp.1 a) acc) = some cs ∧
        c ∈ cs
  | [], acc, h => by
    rcases h with h | h
    · exact h
    · simp at h
  | (c0, p0) :: rest, acc, h => by
    rw [List.foldl_cons]
    refine parentToChildren_lookup rest (addChild p0 c0 acc) ?_
    rcases h with ⟨cs, hcs, hc⟩ | h
    · left
      by_cases hpp : p0 = p
      · subst hpp
        unfold addChild
        rw [hcs]
        exact ⟨cs ++ [c0], lookupA_setA_self _ _ _, List.mem_append_left _ hc⟩
      · unfold addChild
        cases h0 : lookupA p0 acc with
        | none =>
          refine ⟨cs, ?_, hc⟩
          rw [lookupA_append, hcs]
        | some cs0 =>
          exact ⟨cs, (lookupA_setA_ne _ _ _ _ hpp).trans hcs, hc⟩
    · rcases List.mem_cons.mp h with h | h
      · left
        obtain ⟨he1, he2⟩ := Prod.mk.injEq c p c0 p0 ▸ h
        subst he1
        subst he2
        unfold addChild
        cases h0 : lookupA p acc with
        | none =>
          refine ⟨[c], ?_, List.mem_singleton.mpr (Eq.refl c)⟩
          rw [lookupA_append, h0]
          simp [lookupA]
        | some cs0 =>
          exact ⟨cs0 ++ [c], lookupA_setA_self _ _ _, List.mem_append_right _ (by simp)⟩
      · right
        exact h

theorem lookupA_split {α β : Type} [DecidableEq α] {k : α} {v : β} :
    ∀ {l : List (α × β)}, lookupA k l = some v →
      ∃ l1 l2, l = l1 ++ (k, v) :: l2 ∧ k ∉ l1.map Prod.fst
  | [], h => by simp [lookupA] at h
  | (k', v') :: rest, h => by
    by_cases hk : k' = k
    · subst hk
      rw [lookupA, if_pos (Eq.refl k')] at h
      injection h with h
      subst h
      exact ⟨[], rest, by simp⟩
    · rw [lookupA, if_neg hk] at h
      obtain ⟨l1, l2, hsplit, hnot⟩ := lookupA_split h
      refine ⟨(k', v') :: l1, l2, by rw [hsplit]; rfl, ?_⟩
      simp only [List.map_cons, List.mem_cons, not_or]
      exact ⟨fun he => hk he.symm, hnot⟩

/-- The pre-mutation snapshot is valid for a state: every snapshot key of an
agency is among that agency's current reference keys. -/
def SnapValid (snapshot : List (String × List RefKey))
    (m : List (String × AgencyData)) : Prop :=
  ∀ s keys, lookupA s snapshot = some keys → ∀ r ∈ keys, r ∈ (prefs s m).map Prod.fst

theorem snapValid_refKeysSnapshot (m : List (String × AgencyData)) :
    SnapValid (refKeysSnapshot m) m := by
  intro s keys hkeys r hr
  rw [lookupA_refKeysSnapshot] at hkeys
  cases hm : lookupA s m with
  | none => rw [hm] at hkeys; simp at hkeys
  | some d =>
    rw [hm, Option.map_some'] at hkeys
    injection hkeys with hkeys
    subst hkeys
    unfold prefs
    rw [hm]
    cases hd : d.refs with
    | none => rw [hd] at hr; simp at hr
    | some rs =>
      rw [hd] at hr
      simp only [List.mem_dedup] at hr
      simp only [hd, Option.getD_some]
      exact hr

theorem keys_mono_foldRefKeys (mk : String) (rdkOpt : Option String)
    (parent child : String) :
    ∀ (keys : List RefKey) (m : List (String × AgencyData)) (p : String) (r : RefKey),
      r ∈ (prefs p m).map Prod.fst →
      r ∈ (prefs p (keys.foldl
        (fun mm k => processRefKey mk rdkOpt parent child k mm) m)).map Prod.fst
  | [], _, _, _, h => h
  | k0 :: rest, m, p, r, h =>
    keys_mono_foldRefKeys mk rdkOpt parent child rest _ p r
      (keys_mono_processRefKey mk rdkOpt parent child k0 m p r h)

theorem keys_mono_processChild (mk : String) (rdkOpt : Option String)
    (snapshot : List (String × List RefKey)) (parent : String)
    (acc : List (String × AgencyData) × List RefKey) (child : String)
    (p : String) (r : RefKey) (h : r ∈ (prefs p acc.1).map Prod.fst) :
    r ∈ (prefs p (processChild mk rdkOpt snapshot parent acc child).1).map Prod.fst := by
  unfold processChild
  split
  · exact h
  · exact keys_mono_foldRefKeys mk rdkOpt parent child _ acc.1 p r h

theorem isSome_processChild (mk : String) (rdkOpt : Option String)
    (snapshot : List (String × List RefKey)) (parent : String)
    (acc : List (String × AgencyData) × List RefKey) (child : String) (s : String)
    (h : (lookupA s acc.1).isSome) :
    (lookupA s (processChild mk rdkOpt snapshot parent acc child).1).isSome := by
  unfold processChild
  split
  · exact h
  · exact isSome_fold_processRefKey mk rdkOpt parent child _ acc.1 s h

theorem keys_mono_childrenFold (mk : String) (rdkOpt : Option String)
    (snapshot : List (String × List RefKey)) (parent : String) :
    ∀ (cs : List String) (acc : List (String × AgencyData) × List RefKey)
      (p : String) (r : RefKey), r ∈ (prefs p acc.1).map Prod.fst →
      r ∈ (prefs p ((cs.foldl (processChild mk rdkOpt snapshot parent) acc)).1).map
        Prod.fst
  | [], _, _, _, h => h
  | c0 :: rest, acc, p, r, h =>
    keys_mono_childrenFold mk rdkOpt snapshot parent rest _ p r
      (keys_mono_processChild mk rdkOpt snapshot parent acc c0 p r h)

theorem isSome_childrenFold (mk : String) (rdkOpt : Option String)
    (snapshot : List (String × List RefKey)) (parent : String) :
    ∀ (cs : List String) (acc : List (String × AgencyData) × List RefKey) (s : String),
      (lookupA s acc.1).isSome →
      (lookupA s ((cs.foldl (processChild mk rdkOpt snapshot parent) acc)).1).isSome
  | [], _, _, h => h
  | c0 :: rest, acc, s, h =>
    isSome_childrenFold mk rdkOpt snapshot parent rest _ s
      (isSome_processChild mk rdkOpt snapshot parent acc c0 s h)

theorem keys_mono_processParent (mk : String) (rdkOpt : Option String)
    (snapshot : List (String × List RefKey))
    (m : List (String × AgencyData)) (pc : String × List String)
    (p : String) (r : RefKey) (h : r ∈ (prefs p m).map Prod.fst) :
    r ∈ (prefs p (processParent mk rdkOpt snapshot m pc)).map Prod.fst := by
  unfold processParent
  split
  · exact h
  · exact keys_mono_childrenFold mk rdkOpt snapshot pc.1 pc.2 _ p r h

theorem isSome_processParent (mk : String) (rdkOpt : Option String)
    (snapshot : List (String × List RefKey))
    (m : List (String × AgencyData)) (pc : String × List String) (s : String)
    (h : (lookupA s m).isSome) :
    (lookupA s (processParent mk rdkOpt snapshot m pc)).isSome := by
  unfold processParent
  split
  · exact h
  · exact isSome_childrenFold mk rdkOpt snapshot pc.1 pc.2 _ s h

theorem keys_mono_parentsFold (mk : String) (rdkOpt : Option String)
    (snapshot : List (String × List RefKey)) :
    ∀ (ps : List (String × List String)) (m : List (String × AgencyData))
      (p : String) (r : RefKey), r ∈ (prefs p m).map Prod.fst →
      r ∈ (prefs p (ps.foldl (processParent mk rdkOpt snapshot) m)).map Prod.fst
  | [], _, _, _, h => h
  | pc :: rest, m, p, r, h =>
    keys_mono_parentsFold mk rdkOpt snapshot rest _ p r
      (keys_mono_processParent mk rdkOpt snapshot m pc p r h)

theorem isSome_parentsFold (mk : String) (rdkOpt : Option String)
    (snapshot : List (String × List RefKey)) :
    ∀ (ps : List (String × List String)) (m : List (String × AgencyData)) (s : String),
      (lookupA s m).isSome →
      (lookupA s (ps.foldl (processParent mk rdkOpt snapshot) m)).isSome
  | [], _, _, h => h
  | pc :: rest, m, s, h =>
    isSome_parentsFold mk rdkOpt snapshot rest _ s
      (isSome_processParent mk rdkOpt snapshot m pc s h)

theorem snapValid_mono {snapshot : List (String × List RefKey)}
    {m m' : List (String × AgencyData)}
    (hmono : ∀ p r, r ∈ (prefs p m).map Prod.fst → r ∈ (prefs p m').map Prod.fst)
    (h : SnapValid snapshot m) : SnapValid snapshot m' :=
  fun s keys hkeys r hr => hmono s r (h s keys hkeys r hr)

theorem keysP_unpack {s : String} {m : List (String × AgencyData)} {r : RefKey}
    (h : r ∈ (prefs s m).map Prod.fst) :
    ∃ d rs, lookupA s m = some d ∧ d.refs = some rs ∧ (lookupA r rs).isSome := by
  unfold prefs at h
  cases hm : lookupA s m with
  | none => rw [hm] at h; simp at h
  | some d =>
    simp only [hm] at h
    cases hd : d.refs with
    | none => simp only [hd] at h; simp at h
    | some rs =>
      simp only [hd, Option.getD_some] at h
      exact ⟨d, rs, Eq.refl _, hd, (lookupA_isSome_iff r rs).mpr h⟩

theorem fold_ensures (mk : String) (rdkOpt : Option String) (parent child : String)
    (snapshot : List (String × List RefKey)) (childKeys : List RefKey)
    (hck : lookupA child snapshot = some childKeys) :
    ∀ (keys : List RefKey) (m : List (String × AgencyData)) (k : RefKey),
      k ∈ keys → (∀ r ∈ keys, r ∈ childKeys) →
      (lookupA parent m).isSome → SnapValid snapshot m →
      k ∈ (prefs parent (keys.foldl
        (fun mm kk => processRefKey mk rdkOpt parent child kk mm) m)).map Prod.fst := by
  intro keys
  induction keys with
  | nil => intro m k hk; simp at hk
  | cons k0 rest ih =>
    intro m k hk hsub hpar hval
    rw [List.foldl_cons]
    by_cases hkk : k = k0
    · subst hkk
      have hkC : k ∈ (prefs child m).map Prod.fst :=
        hval child childKeys hck k (hsub k (List.mem_cons_self _ _))
      obtain ⟨cd, crefs, hcd, hcr, hkc⟩ := keysP_unpack hkC
      exact keys_mono_foldRefKeys mk rdkOpt parent child rest _ parent k
        (processRefKey_ensures hpar hcd hcr hkc)
    · rcases List.mem_cons.mp hk with h | h
      · exact absurd h hkk
      · refine ih _ k h (fun r hr => hsub r (List.mem_cons_of_mem k0 hr)) ?_ ?_
        · rw [isSome_processRefKey]
          exact hpar
        · exact snapValid_mono
            (fun q r hq => keys_mono_processRefKey mk rdkOpt parent child k0 m q r hq)
            hval

theorem childrenFold_ensures (mk : String) (rdkOpt : Option String)
    (snapshot : List (String × List RefKey)) (p : String) :
    ∀ (cs : List String) (m : List (String × AgencyData)) (counted : List RefKey)
      (c : String) (R : RefKey),
      c ∈ cs →
      (lookupA p m).isSome →
      SnapValid snapshot m →
      (∀ r ∈ counted, r ∈ (prefs p m).map Prod.fst) →
      (lookupA c m).isSome →
      R ∈ (lookupA c snapshot).getD [] →
      R ∈ (prefs p ((cs.foldl (processChild mk rdkOpt snapshot p)
        (m, counted)).1)).map Prod.fst := by
  intro cs
  induction cs with
  | nil => intro m counted c R hc; simp at hc
  | cons c0 rest ih =>
    intro m counted c R hc hpar hval hcounted hcm hsnapR
    rw [List.foldl_cons]
    by_cases hc0m : (lookupA c0 m).isSome
    · have hstep := processChild_eq mk rdkOpt snapshot p c0 m counted hc0m
      have hnewOk : ∀ r ∈ ((lookupA c0 snapshot).getD []).filter
          (fun kk => kk ∉ counted),
          r ∈ (prefs p ((((lookupA c0 snapshot).getD []).filter
            (fun kk => kk ∉ counted)).foldl
              (fun mm kk => processRefKey mk rdkOpt p c0 kk mm) m)).map Prod.fst := by
        intro r hr
        cases hcs0 : lookupA c0 snapshot with
        | none =>
          rw [hcs0] at hr
          simp at hr
        | some ck =>
          rw [hcs0] at hr
          simp only [Option.getD_some] at hr
          simp only [hcs0, Option.getD_some]
          refine fold_ensures mk rdkOpt p c0 snapshot ck hcs0 _ m r hr ?_ hpar hval
          intro r' hr'
          exact (List.mem_filter.mp hr').1
      by_cases hcc : c = c0
      · subst hcc
        rw [hstep]
        by_cases hRnew : R ∈ ((lookupA c snapshot).getD []).filter
            (fun kk => kk ∉ counted)
        · exact keys_mono_childrenFold mk rdkOpt snapshot p rest _ p R (hnewOk R hRnew)
        · have hRcnt : R ∈ counted := by
            by_contra hnc
            exact hRnew (List.mem_filter.mpr ⟨hsnapR, by simpa using hnc⟩)
          refine keys_mono_childrenFold mk rdkOpt snapshot p rest _ p R ?_
          exact keys_mono_foldRefKeys mk rdkOpt p c _ m p R (hcounted R hRcnt)
      · rw [hstep]
        refine ih _ _ c R ?_ ?_ ?_ ?_ ?_ hsnapR
        · rcases List.mem_cons.mp hc with h | h
          · exact absurd h hcc
          · exact h
        · exact isSome_fold_processRefKey mk rdkOpt p c0 _ m p hpar
        · exact snapValid_mono
            (fun q r hq => keys_mono_foldRefKeys mk rdkOpt p c0 _ m q r hq) hval
        · intro r hr
          rcases List.mem_append.mp hr with hr | hr
          · exact keys_mono_foldRefKeys mk rdkOpt p c0 _ m p r (hcounted r hr)
          · exact hnewOk r hr
        · exact isSome_fold_processRefKey mk rdkOpt p c0 _ m c hcm
    · have hstep : processChild mk rdkOpt snapshot p (m, counted) c0 = (m, counted) := by
        unfold processChild
        have : (lookupA c0 m).isNone = true := by
          cases hx : lookupA c0 m with
          | none => rfl
          | some _ => rw [hx] at hc0m; simp at hc0m
        simp [this]
      rw [hstep]
      have hcc : c ≠ c0 := by
        intro he
        rw [he] at hcm
        exact hc0m hcm
      refine ih m counted c R ?_ hpar hval hcounted hcm hsnapR
      rcases List.mem_cons.mp hc with h | h
      · exact absurd h hcc
      · exact h

theorem processParent_ensures (mk : String) (rdkOpt : Option String)
    (snapshot : List (String × List RefKey)) {p : String} {cs : List String}
    {c : String} {R : RefKey} {m : List (String × AgencyData)}
    (hc : c ∈ cs) (hpar : (lookupA p m).isSome) (hval : SnapValid snapshot m)
    (hcm : (lookupA c m).isSome) (hsnapR : R ∈ (lookupA c snapshot).getD []) :
    R ∈ (prefs p (processParent mk rdkOpt snapshot m (p, cs))).map Prod.fst := by
  unfold processParent
  have hparF : (lookupA (p, cs).1 m).isNone = false := by
    simp only [Option.isNone_eq_false_iff]
    exact hpar
  simp only [hparF, Bool.false_eq_true, if_false]
  refine childrenFold_ensures mk rdkOpt snapshot p cs m _ c R hc hpar hval ?_ hcm hsnapR
  intro r hr
  cases hps : lookupA p snapshot with
  | none =>
    rw [hps] at hr
    simp at hr
  | some keys =>
    rw [hps, Option.getD_some] at hr
    exact hval p keys hps r hr

/-- CLAIM C4.  `_roll_up_agency_totals` extends every parent agency's
references map with any reference carried by one of its children but absent
(or present) under the parent — the key is in the parent's rolled-up
references map; and concretely a parent "doe" whose only child "epa" carries
one reference of value 5, with no references of its own, rolls up to
`doe.total = 5` with that same key and value in `doe.references`. -/
theorem rollup_extends_parent_refs :
    (∀ (hierarchy : List (String × String)) (m : List (String × AgencyData))
        (mk : String) (rdkOpt : Option String) (c p : String) (R : RefKey)
        (dc : AgencyData) (rsC : List (RefKey × List (String × Nat))),
        (c, p) ∈ hierarchy →
        (lookupA p m).isSome →
        lookupA c m = some dc → dc.refs = some rsC → (lookupA R rsC).isSome →
        ∃ dp' rs', lookupA p (rollUpAgencyTotals hierarchy m mk rdkOpt) = some dp' ∧
          dp'.refs = some rs' ∧ R ∈ rs'.map Prod.fst) ∧
    lookupA "doe" (rollUpAgencyTotals [("epa", "doe")]
        [("doe", ⟨[("total", 0)], some []⟩),
         ("epa", ⟨[("total", 5)], some [(⟨40, "", "", "", "50"⟩, [("count", 5)])]⟩)]
        "total" (some "count")) =
      some ⟨[("total", 5)], some [(⟨40, "", "", "", "50"⟩, [("count", 5)])]⟩ := by
  refine ⟨?_, by decide⟩
  intro hierarchy m mk rdkOpt c p R dc rsC hmem hpar hcd hcr hRC
  have hsnapC : R ∈ (lookupA c (refKeysSnapshot m)).getD [] := by
    rw [lookupA_refKeysSnapshot, hcd]
    simp only [Option.map_some', hcr, Option.getD_some, List.mem_dedup]
    exact (lookupA_isSome_iff R rsC).mp hRC
  obtain ⟨cs, hlook, hcs⟩ :=
    parentToChildren_lookup hierarchy [] (Or.inr hmem)
  obtain ⟨l1, l2, hsplit, hl1⟩ := lookupA_split hlook
  unfold rollUpAgencyTotals parentToChildren
  rw [hsplit, List.foldl_append, List.foldl_cons]
  -- the state reaching the parent's own iteration
  have hpar1 : (lookupA p (l1.foldl
      (processParent mk rdkOpt (refKeysSnapshot m)) m)).isSome :=
    isSome_parentsFold mk rdkOpt (refKeysSnapshot m) l1 m p hpar
  have hval1 : SnapValid (refKeysSnapshot m)
      (l1.foldl (processParent mk rdkOpt (refKeysSnapshot m)) m) :=
    snapValid_mono
      (fun q r hq => keys_mono_parentsFold mk rdkOpt (refKeysSnapshot m) l1 m q r hq)
      (snapValid_refKeysSnapshot m)
  have hcm1 : (lookupA c (l1.foldl
      (processParent mk rdkOpt (refKeysSnapshot m)) m)).isSome :=
    isSome_parentsFold mk rdkOpt (refKeysSnapshot m) l1 m c (by simp [hcd])
  -- the parent's iteration inserts the key, the remaining parents keep it
  have hkey := processParent_ensures mk rdkOpt (refKeysSnapshot m) hcs hpar1 hval1
    hcm1 hsnapC
  have hkey2 := keys_mono_parentsFold mk rdkOpt (refKeysSnapshot m) l2 _ p R hkey
  obtain ⟨dp2, rs', hdp2, hrefs2, hlook2⟩ := keysP_unpack hkey2
  refine ⟨{ dp2 with metrics := (
      setA mk (refSumWith (rdkOpt.getD mk) rs') dp2.metrics) }, rs', ?_, ?_, ?_⟩
  · rw [lookupA_recomputeTotals, hdp2]
    simp only [Option.map_some', hrefs2]
  · simp [hrefs2]
  · exact (lookupA_isSome_iff R rs').mp hlook2

/-- One entry of the unique-total loop of `analyze_word_count_by_agency`
(lines 182-188): a reference key not yet counted adds its count to its
title's total and is marked counted. -/
def countStep (acc : List (Nat × Nat) × List RefKey) (e : RefKey × Nat) :
    List (Nat × Nat) × List RefKey :=
  if e.1 ∈ acc.2 then acc
  else (setA e.1.title ((lookupA e.1.title acc.1).getD 0 + e.2) acc.1, acc.2 ++ [e.1])

/-- The `title_totals` / `counted_refs` pair after the deduplicating scan of
all agencies' per-reference word counts. -/
def titleTotalsAndCounted (agencyRefCounts : List (String × List (RefKey × Nat))) :
    List (Nat × Nat) × List RefKey :=
  agencyRefCounts.foldl (fun acc ag => ag.2.foldl countStep acc) ([], [])

/-- `total_word_count = sum(title_totals.values())` (line 191). -/
def totalWordCount (agencyRefCounts : List (String × List (RefKey × Nat))) : Nat :=
  (((titleTotalsAndCounted agencyRefCounts).1).map Prod.snd).sum

/-- The distinct reference keys of a pair list in first-occurrence order,
relative to an already-counted set — the specification-side description of
`counted_refs`. -/
def firstKeys : List (RefKey × Nat) → List RefKey → List RefKey
  | [], _ => []
  | e :: rest, counted =>
    if e.1 ∈ counted then firstKeys rest counted
    else e.1 :: firstKeys rest (counted ++ [e.1])

theorem sum_setA_title (t : Nat) (c : Nat) :
    ∀ (tt : List (Nat × Nat)),
      ((setA t ((lookupA t tt).getD 0 + c) tt).map Prod.snd).sum =
        (tt.map Prod.snd).sum + c
  | [] => by simp [setA, lookupA]
  | (t', v) :: rest => by
    by_cases h : t' = t
    · subst h
      simp [setA, lookupA]
      ring
    · simp only [setA, lookupA, if_neg h, List.map_cons, List.sum_cons]
      rw [sum_setA_title t c rest]
      ring

theorem countStep_fold_spec :
    ∀ (pairs : List (RefKey × Nat)) (tt : List (Nat × Nat)) (counted : List RefKey)
      (value : RefKey → Nat),
      (∀ k c, (k, c) ∈ pairs → value k = c) →
      (((pairs.foldl countStep (tt, counted)).1.map Prod.snd).sum =
        (tt.map Prod.snd).sum + ((firstKeys pairs counted).map value).sum) ∧
      (pairs.foldl countStep (tt, counted)).2 = counted ++ firstKeys pairs counted
  | [], tt, counted, value, _ => by simp [firstKeys]
  | e :: rest, tt, counted, value, h => by
    rw [List.foldl_cons]
    by_cases hmem : e.1 ∈ counted
    · have hstep : countStep (tt, counted) e = (tt, counted) := by
        simp [countStep, hmem]
      rw [hstep]
      have ih := countStep_fold_spec rest tt counted value
        (fun k c hk => h k c (List.mem_cons_of_mem e hk))
      simp only [firstKeys, if_pos hmem]
      exact ih
    · have hstep : countStep (tt, counted) e =
          (setA e.1.title ((lookupA e.1.title tt).getD 0 + e.2) tt, counted ++ [e.1]) := by
        simp [countStep, hmem]
      rw [hstep]
      have ih := countStep_fold_spec rest
        (setA e.1.title ((lookupA e.1.title tt).getD 0 + e.2) tt) (counted ++ [e.1]) value
        (fun k c hk => h k c (List.mem_cons_of_mem e hk))
      simp only [firstKeys, if_neg hmem]
      constructor
      · rw [ih.1, sum_setA_title]
        have hv : value e.1 = e.2 := h e.1 e.2 (by
          rw [show (e.1, e.2) = e from Eq.refl e]
          exact List.mem_cons_self e rest)
        simp only [List.map_cons, List.sum_cons, hv]
        ring
      · rw [ih.2]
        simp

theorem firstKeys_nodup :
    ∀ (pairs : List (RefKey × Nat)) (counted : List RefKey),
      (firstKeys pairs counted).Nodup ∧ ∀ k ∈ firstKeys pairs counted, k ∉ counted
  | [], _ => by simp [firstKeys]
  | e :: rest, counted => by
    by_cases hmem : e.1 ∈ counted
    · simp only [firstKeys, if_pos hmem]
      exact firstKeys_nodup rest counted
    · simp only [firstKeys, if_neg hmem]
      obtain ⟨hnd, hdisj⟩ := firstKeys_nodup rest (counted ++ [e.1])
      refine ⟨List.nodup_cons.mpr ⟨?_, hnd⟩, ?_⟩
      · intro hin
        exact hdisj e.1 hin (List.mem_append_right _ (by simp))
      · intro k hk
        rcases List.mem_cons.mp hk with hk | hk
        · subst hk
          exact hmem
        · intro hkc
          exact hdisj k hk (List.mem_append_left _ hkc)

theorem firstKeys_mem_iff :
    ∀ (pairs : List (RefKey × Nat)) (counted : List RefKey) (k : RefKey),
      k ∈ firstKeys pairs counted ↔ (k ∈ pairs.map Prod.fst ∧ k ∉ counted)
  | [], _, k => by simp [firstKeys]
  | e :: rest, counted, k => by
    by_cases hmem : e.1 ∈ counted
    · simp only [firstKeys, if_pos hmem]
      rw [firstKeys_mem_iff rest counted k]
      simp only [List.map_cons, List.mem_cons]
      constructor
      · rintro ⟨h1, h2⟩
        exact ⟨Or.inr h1, h2⟩
      · rintro ⟨h1 | h1, h2⟩
        · subst h1
          exact absurd hmem h2
        · exact ⟨h1, h2⟩
    · simp only [firstKeys, if_neg hmem]
      rw [List.mem_cons, firstKeys_mem_iff rest (counted ++ [e.1]) k]
      simp only [List.map_cons, List.mem_cons]
      constructor
      · rintro (h | ⟨h1, h2⟩)
        · subst h
          exact ⟨Or.inl (Eq.refl _), hmem⟩
        · exact ⟨Or.inr h1, fun hc => h2 (List.mem_append_left _ hc)⟩
      · rintro ⟨h1 | h1, h2⟩
        · exact Or.inl h1
        · by_cases hke : k = e.1
          · exact Or.inl hke
          · refine Or.inr ⟨h1, ?_⟩
            intro hc
            rcases List.mem_append.mp hc with hc | hc
            · exact h2 hc
            · simp only [List.mem_singleton] at hc
              exact hke hc

theorem nested_fold_eq_flat (l : List (String × List (RefKey × Nat)))
    (acc : List (Nat × Nat) × List RefKey) :
    l.foldl (fun a ag => ag.2.foldl countStep a) acc =
      (l.flatMap Prod.snd).foldl countStep acc := by
  induction l generalizing acc with
  | nil => simp
  | cons ag rest ih =>
    rw [List.foldl_cons, List.flatMap_cons, List.foldl_append, ih]

theorem lookupA_mem {α β : Type} [DecidableEq α] {k : α} {v : β} :
    ∀ {l : List (α × β)}, lookupA k l = some v → (k, v) ∈ l
  | [], h => by simp [lookupA] at h
  | (k', v') :: rest, h => by
    by_cases hk : k' = k
    · subst hk
      rw [lookupA, if_pos (Eq.refl k')] at h
      injection h with h
      subst h
      exact List.mem_cons_self _ _
    · rw [lookupA, if_neg hk] at h
      exact List.mem_cons_of_mem _ (lookupA_mem h)

theorem mem_lookupA_isSome {α β : Type} [DecidableEq α] {k : α} {c : β} :
    ∀ {l : List (α × β)}, (k, c) ∈ l → (lookupA k l).isSome
  | [], h => by simp at h
  | (k', v') :: rest, h => by
    by_cases hk : k' = k
    · subst hk
      simp [lookupA]
    · rw [lookupA, if_neg hk]
      rcases List.mem_cons.mp h with he | he
      · injection he with he1 he2
        exact absurd he1.symm hk
      · exact mem_lookupA_isSome he

/-- CLAIM C8.  The word-count analysis's global total equals the sum of the
per-reference counts over the distinct reference keys appearing in any
agency's results, each distinct key contributing exactly once no matter how
many agencies cite it; `firstKeys` is the set of distinct keys (proved
duplicate-free and extensionally equal to the keys present).  The concrete
conjunct shows two agencies sharing a key totalling 12, not 17. -/
theorem word_count_global_total :
    (∀ (arc : List (String × List (RefKey × Nat))),
        (∀ (k : RefKey) (c1 c2 : Nat), (k, c1) ∈ arc.flatMap Prod.snd →
          (k, c2) ∈ arc.flatMap Prod.snd → c1 = c2) →
        totalWordCount arc =
          ((firstKeys (arc.flatMap Prod.snd) []).map
            (fun k => (lookupA k (arc.flatMap Prod.snd)).getD 0)).sum ∧
        (firstKeys (arc.flatMap Prod.snd) []).Nodup ∧
        (∀ k : RefKey, k ∈ firstKeys (arc.flatMap Prod.snd) [] ↔
          k ∈ (arc.flatMap Prod.snd).map Prod.fst)) ∧
    totalWordCount
      [("a", [(⟨1, "", "", "", "5"⟩, 5), (⟨2, "", "", "", "7"⟩, 7)]),
       ("b", [(⟨1, "", "", "", "5"⟩, 5)])] = 12 := by
  refine ⟨?_, by decide⟩
  intro arc hagree
  have hval : ∀ (k : RefKey) (c : Nat), (k, c) ∈ arc.flatMap Prod.snd →
      (lookupA k (arc.flatMap Prod.snd)).getD 0 = c := by
    intro k c hk
    obtain ⟨v, hv⟩ := Option.isSome_iff_exists.mp (mem_lookupA_isSome hk)
    rw [hv, Option.getD_some]
    exact hagree k v c (lookupA_mem hv) hk
  have hspec := countStep_fold_spec (arc.flatMap Prod.snd) [] []
    (fun k => (lookupA k (arc.flatMap Prod.snd)).getD 0) hval
  refine ⟨?_, (firstKeys_nodup _ _).1, ?_⟩
  · unfold totalWordCount titleTotalsAndCounted
    rw [nested_fold_eq_flat]
    rw [hspec.1]
    simp
  · intro k
    rw [firstKeys_mem_iff]
    simp

end ECFR
